import Mathlib

/-!
Verification development for the stats symbol-interning table of
`source/common/stats/symbol_table_impl.h` (Envoy stats core).

The header file in the repository declares the `SymbolTableImpl` class and
contains inline bodies for the byte-level helpers
(`writeLengthReturningNext`, `StatName::dataSize`, `StatName::size`,
`StatName::hash`, `StatName::operator==`, `StatName::data`); those are
translated here directly from the source.  The out-of-line bodies
(`encode`, `free`, `incRefCount`, `toString`, `lessThan`, `join`,
`populateList`, `Encoding::addSymbol`, `Encoding::decodeSymbols`,
`Encoding::moveToStorage`) live in `symbol_table_impl.cc`, which is not part
of the repository snapshot; they are modelled from the specification, as
marked on each definition.

Modelling conventions:
* C++ strings are modelled as `List Char`; byte buffers as `List Nat`
  (each entry a byte value `< 256`).
* maps (`absl::flat_hash_map`) are modelled as association lists with
  unique keys; `std::stack` as a `List` used LIFO at the head.
* fatal errors (release asserts / debug `ASSERT`s) make an operation
  return `none` / a dedicated failure constructor: the process aborts,
  so there is no resulting state.
-/

namespace EnvoyStats

/-- A Symbol represents a string-token with a small index (`using Symbol = uint32_t`). -/
abbrev Symbol := Nat

/-- A token (maximal `.`-free substring of a stat name) as a list of characters. -/
abbrev Tok := List Char

/-- `constexpr uint64_t StatNameSizeEncodingBytes = 2`. -/
def StatNameSizeEncodingBytes : Nat := 2

/-- `constexpr uint64_t StatNameMaxSize = 1 << (8 * StatNameSizeEncodingBytes)`, i.e. 65536. -/
def StatNameMaxSize : Nat := 2 ^ (8 * StatNameSizeEncodingBytes)

/-! ### Association-list helpers

`absl::flat_hash_map` is a unique-key map; we model it as an association
list with first-match lookup.  `amodify` updates the value stored at a key
in place and `aerase` removes the (first) binding of a key. -/

/-- First-match lookup in an association list. -/
def alookup {κ ν : Type} [DecidableEq κ] : List (κ × ν) → κ → Option ν
  | [], _ => none
  | (k, v) :: rest, key => if k = key then some v else alookup rest key

/-- Update in place the value bound to `key` (no effect when absent). -/
def amodify {κ ν : Type} [DecidableEq κ] : List (κ × ν) → κ → (ν → ν) → List (κ × ν)
  | [], _, _ => []
  | (k, v) :: rest, key, f =>
    if k = key then (k, f v) :: amodify rest key f
    else (k, v) :: amodify rest key f

/-- Remove the first binding of `key`. -/
def aerase {κ ν : Type} [DecidableEq κ] : List (κ × ν) → κ → List (κ × ν)
  | [], _ => []
  | (k, v) :: rest, key => if k = key then rest else (k, v) :: aerase rest key

/-! ### Variable-length symbol encoding

Modelled from the spec: "Each token is encoded with a 7-bits-per-byte
varint: the low 7 bits of the id go into each byte; the high bit is 1 to
signal `more bytes follow` and 0 on the final byte."
(`SymbolTableImpl::Encoding::addSymbol` / `decodeSymbols` are declared in
the header; their bodies are in the missing `symbol_table_impl.cc`.) -/

/-- Structural helper for `varintBytes`: `fuel` only bounds the recursion
depth (any `fuel ≥ n` yields the same bytes, see `varintBytesGo_congr`). -/
def varintBytesGo (fuel : Nat) (n : Nat) : List Nat :=
  match fuel with
  | 0 => [n]
  | f + 1 => if n < 128 then [n] else (n % 128 + 128) :: varintBytesGo f (n / 128)

/-- Modelled from the spec: the varint byte sequence of one symbol id,
low 7 bits first, high bit set on all bytes except the last
(`Encoding::addSymbol` appends exactly these bytes to the vector). -/
def varintBytes (n : Nat) : List Nat :=
  varintBytesGo n n

theorem varintBytesGo_congr :
    ∀ f1 f2 n, n ≤ f1 → n ≤ f2 → varintBytesGo f1 n = varintBytesGo f2 n := by
  intro f1
  induction f1 with
  | zero =>
    intro f2 n h1 _
    interval_cases n
    cases f2 <;> simp [varintBytesGo]
  | succ f ihf =>
    intro f2 n h1 h2
    cases f2 with
    | zero =>
      interval_cases n
      simp [varintBytesGo]
    | succ g =>
      by_cases h : n < 128
      · simp [varintBytesGo, h]
      · simp only [varintBytesGo, h, if_neg, not_false_iff]
        have hdiv : n / 128 < n := Nat.div_lt_self (by omega) (by omega)
        rw [ihf g (n / 128) (by omega) (by omega)]

/-- The defining recursion of the varint encoder: output the low 7 bits; if
anything remains, set the high bit and continue with the next 7 bits. -/
theorem varintBytes_eq (n : Nat) :
    varintBytes n = if n < 128 then [n] else (n % 128 + 128) :: varintBytes (n / 128) := by
  by_cases h : n < 128
  · cases n with
    | zero => simp [varintBytes, varintBytesGo]
    | succ m => simp [varintBytes, varintBytesGo, h]
  · have h1 : 1 ≤ n := by omega
    rw [if_neg h]
    obtain ⟨m, rfl⟩ : ∃ m, n = m + 1 := ⟨n - 1, by omega⟩
    show varintBytesGo (m + 1) (m + 1) = _
    rw [varintBytesGo, if_neg h]
    have hdiv : (m + 1) / 128 < m + 1 := Nat.div_lt_self (by omega) (by omega)
    rw [varintBytesGo_congr m ((m + 1) / 128) ((m + 1) / 128) (by omega) (le_refl _)]
    rfl

/-- Modelled from the spec: the payload accumulated by repeated
`Encoding::addSymbol` calls is the concatenation of the varints. -/
def symbolsBytes : List Symbol → List Nat
  | [] => []
  | s :: rest => varintBytes s ++ symbolsBytes rest

/-- Modelled from the spec: `Encoding::decodeSymbols` walks the varint
stream accumulating 7 bits per byte (`symbol |= (uc & 0x7f) << shift`),
emitting a symbol whenever the high bit is clear.  A truncated stream
(continuation bit set on the final byte) is a fatal decode error,
modelled as `none`. -/
def decodeSymbolsAux : List Nat → Nat → Nat → Option (List Symbol)
  | [], shift, _ => if shift = 0 then some [] else none
  | b :: rest, shift, acc =>
    if b % 256 < 128 then
      match decodeSymbolsAux rest 0 0 with
      | some syms => some ((acc + b % 128 * 2 ^ shift) :: syms)
      | none => none
    else decodeSymbolsAux rest (shift + 7) (acc + b % 128 * 2 ^ shift)

/-- Modelled from the spec: decode a full payload back to its symbol ids. -/
def decodeSymbols (payload : List Nat) : Option (List Symbol) :=
  decodeSymbolsAux payload 0 0

/-! ### The two-byte length header (from the source header file) -/

/-- From the source (`SymbolTableImpl::writeLengthReturningNext`):
`ASSERT(length < StatNameMaxSize); *bytes++ = length & 0xff;
*bytes++ = length >> 8;`.  The two bytes written are returned (the data
bytes follow them); the `ASSERT` firing is modelled as `none`. -/
def writeLengthReturningNext (length : Nat) : Option (List Nat) :=
  if length < StatNameMaxSize then some [length % 256, length / 256 % 256] else none

/-- Outcome of `Encoding::moveToStorage`: either the bytes of the storage
(`size_lo, size_hi, payload…`) or the `ASSERT(length < StatNameMaxSize)`
inside `writeLengthReturningNext` firing, which aborts the process. -/
inductive MoveOutcome where
  | ok (storage : List Nat)
  | assertFail
deriving DecidableEq

/-- Modelled from the spec (`Encoding::moveToStorage` body is in the missing
`.cc`): writes the two length bytes via `writeLengthReturningNext`, then the
accumulated payload. -/
def moveToStorage (vec : List Nat) : MoveOutcome :=
  match writeLengthReturningNext vec.length with
  | some header => .ok (header ++ vec)
  | none => .assertFail

/-! ### StatName accessors (inline in the source header) -/

/-- From the source (`StatName::dataSize`): reads the first two bytes of
`size_and_data_` as a little-endian length.  The source computes
`size_and_data_[0] | (uint64_t(size_and_data_[1]) << 8)`; on byte values
(`< 256`) this bitwise-or equals `b0 + 256 * b1`, used here directly. -/
def dataSizeOf (storage : List Nat) : Nat :=
  storage.getD 0 0 + 256 * storage.getD 1 0

/-- From the source (`StatName::size`): `dataSize() + StatNameSizeEncodingBytes`. -/
def sizeOf (storage : List Nat) : Nat :=
  dataSizeOf storage + StatNameSizeEncodingBytes

/-- From the source (`StatName::data`): the bytes after the two size bytes.
The table reads exactly `dataSize()` bytes starting there. -/
def payloadOf (storage : List Nat) : List Nat :=
  (storage.drop StatNameSizeEncodingBytes).take (dataSizeOf storage)

/-- Modelled from the spec (`HashUtil::xxHash64` lives in the missing
`common/common/hash.h`): some fixed 64-bit hash of the payload bytes; the
claims depend only on it being a function of those bytes. -/
def xxHash64 (bytes : List Nat) : Nat :=
  bytes.foldl (fun h b => ((h ^^^ b) * 6364136223846793005) % 2 ^ 64) 14695981039346656037

/-- From the source (`StatName::hash`): hashes the `dataSize()` payload
bytes starting at `data()`. -/
def statNameHash (storage : List Nat) : Nat :=
  xxHash64 (payloadOf storage)

/-- From the source (`StatName::operator==`): `dataSize` equality plus
`memcmp` of the `dataSize` payload bytes. -/
def statNameEq (a b : List Nat) : Bool :=
  dataSizeOf a = dataSizeOf b && payloadOf a = payloadOf b

/-! ### Splitting a stat name on `.` and joining tokens back

Modelled from the spec: `encode` "splits `name` on `.` into tokens" (the
source uses `absl::StrSplit(name, '.')`) and `to_string` joins the decoded
tokens with `.` (`absl::StrJoin(name_tokens, ".")`). -/

/-- Modelled from the spec: split on `'.'`; like `absl::StrSplit`, splitting
any string yields at least one (possibly empty) token. -/
def splitOnDot : List Char → List Tok
  | [] => [[]]
  | c :: rest =>
    if c = '.' then [] :: splitOnDot rest
    else
      match splitOnDot rest with
      | [] => [[c]]
      | t :: ts => (c :: t) :: ts

/-- Modelled from the spec: the tail of a `.`-join (a separator before each
further token). -/
def joinTail : List Tok → List Char
  | [] => []
  | t :: ts => '.' :: (t ++ joinTail ts)

/-- Modelled from the spec: join tokens with `'.'` (`absl::StrJoin`). -/
def joinDot : List Tok → List Char
  | [] => []
  | t :: ts => t ++ joinTail ts

/-- Modelled from the spec: the token list `encode` interns.  The empty
input yields a zero-length payload, i.e. no tokens at all. -/
def tokensOf (name : List Char) : List Tok :=
  if name = [] then [] else splitOnDot name

/-! ### The symbol table state

Modelled from the spec (§3 data model): forward map `string → (id, ref
count)`, reverse map `id → string`, LIFO free pool and the monotonic
counter.  Ids are minted starting from 1 (0 is reserved). -/

/-- `struct SharedSymbol { Symbol symbol_; uint32_t ref_count_; }` (from the
source header). -/
structure SharedSymbol where
  symbol : Symbol
  ref_count : Nat
deriving DecidableEq

/-- The mutable state of a `SymbolTableImpl`: `encode_map_`, `decode_map_`,
`pool_` and `monotonic_counter_` (the staged `next_symbol_` is an
implementation detail of insertion and is represented by minting at use
time, as the spec describes). -/
structure TableState where
  encode_map : List (Tok × SharedSymbol)
  decode_map : List (Symbol × Tok)
  pool : List Symbol
  monotonic_counter : Symbol
deriving DecidableEq

/-- A freshly constructed table: empty maps, empty pool, next id 1. -/
def initState : TableState :=
  { encode_map := [], decode_map := [], pool := [], monotonic_counter := 1 }

/-- `numSymbols()`: the number of live entries in the reverse map. -/
def numSymbols (st : TableState) : Nat :=
  st.decode_map.length

/-- Modelled from the spec (`SymbolTableImpl::toSymbol`, body in the missing
`.cc`): if the token is interned, bump its ref count and reuse its id;
otherwise mint a new id — popping the free pool if non-empty, else taking
the monotonic counter — and insert it into both maps with ref count 1. -/
def toSymbol (st : TableState) (t : Tok) : TableState × Symbol :=
  match alookup st.encode_map t with
  | some e =>
      ({ st with
          encode_map := amodify st.encode_map t
            (fun e0 => { e0 with ref_count := e0.ref_count + 1 }) },
        e.symbol)
  | none =>
      match st.pool with
      | s :: rest =>
          ({ st with
              encode_map := (t, ⟨s, 1⟩) :: st.encode_map,
              decode_map := (s, t) :: st.decode_map,
              pool := rest },
            s)
      | [] =>
          ({ st with
              encode_map := (t, ⟨st.monotonic_counter, 1⟩) :: st.encode_map,
              decode_map := (st.monotonic_counter, t) :: st.decode_map,
              monotonic_counter := st.monotonic_counter + 1 },
            st.monotonic_counter)

/-- Modelled from the spec: intern every token in order, collecting the
symbol ids (`SymbolTableImpl::addTokensToEncoding`'s interning loop). -/
def internAll (st : TableState) : List Tok → TableState × List Symbol
  | [] => (st, [])
  | t :: ts =>
    let p := toSymbol st t
    let q := internAll p.1 ts
    (q.1, p.2 :: q.2)

/-- Modelled from the spec (`SymbolTableImpl::encode`): split the name,
intern the tokens, encode the ids as varints and prefix the two-byte
length header.  `none` models the `ASSERT` in `writeLengthReturningNext`
firing for an over-long payload (a crash, not an error return). -/
def encode (st : TableState) (name : List Char) : Option (TableState × List Nat) :=
  let p := internAll st (tokensOf name)
  match moveToStorage (symbolsBytes p.2) with
  | .ok storage => some (p.1, storage)
  | .assertFail => none

/-- Modelled from the spec (`SymbolTableImpl::fromSymbol`): reverse-map
lookup of one symbol. -/
def fromSymbol (st : TableState) (s : Symbol) : Option Tok :=
  alookup st.decode_map s

/-- Modelled from the spec: look up every symbol of a decoded vector; an
unknown id is a fatal error (`none`). -/
def lookupAll (st : TableState) : List Symbol → Option (List Tok)
  | [] => some []
  | s :: rest =>
    match fromSymbol st s, lookupAll st rest with
    | some t, some ts => some (t :: ts)
    | _, _ => none

/-- Modelled from the spec (`SymbolTableImpl::toString` /
`decodeSymbolVec`): decode the payload, look every id up in the reverse
map and join with `.`; decode failure or an unknown id is fatal (`none`). -/
def toString (st : TableState) (storage : List Nat) : Option (List Char) :=
  match decodeSymbols (payloadOf storage) with
  | none => none
  | some syms =>
    match lookupAll st syms with
    | none => none
    | some toks => some (joinDot toks)

/-- Modelled from the spec (`SymbolTableImpl::free`, one symbol): decrement
the token's ref count; on reaching zero remove it from both maps and push
the id onto the free pool.  An unknown id is a fatal error (`none`). -/
def freeOne (st : TableState) (s : Symbol) : Option TableState :=
  match alookup st.decode_map s with
  | none => none
  | some t =>
    match alookup st.encode_map t with
    | none => none
    | some e =>
      if e.ref_count = 1 then
        some { st with
                encode_map := aerase st.encode_map t,
                decode_map := aerase st.decode_map s,
                pool := s :: st.pool }
      else
        some { st with
                encode_map := amodify st.encode_map t
                  (fun e0 => { e0 with ref_count := e0.ref_count - 1 }) }

/-- Modelled from the spec: `free` walks the decoded symbols in order. -/
def freeSymbols (st : TableState) : List Symbol → Option TableState
  | [] => some st
  | s :: rest =>
    match freeOne st s with
    | none => none
    | some st1 => freeSymbols st1 rest

/-- Modelled from the spec (`SymbolTableImpl::free`): decode the payload
and release every symbol. -/
def free (st : TableState) (storage : List Nat) : Option TableState :=
  match decodeSymbols (payloadOf storage) with
  | none => none
  | some syms => freeSymbols st syms

/-- Modelled from the spec (`SymbolTableImpl::incRefCount`, one symbol):
bump the token's ref count; unknown ids are fatal (`none`). -/
def incOne (st : TableState) (s : Symbol) : Option TableState :=
  match alookup st.decode_map s with
  | none => none
  | some t =>
    match alookup st.encode_map t with
    | none => none
    | some _ =>
      some { st with
              encode_map := amodify st.encode_map t
                (fun e0 => { e0 with ref_count := e0.ref_count + 1 }) }

/-- Modelled from the spec: `incRefCount` walks the decoded symbols. -/
def incSymbols (st : TableState) : List Symbol → Option TableState
  | [] => some st
  | s :: rest =>
    match incOne st s with
    | none => none
    | some st1 => incSymbols st1 rest

/-- Modelled from the spec (`SymbolTableImpl::incRefCount`): decode the
payload and increment the ref count of every symbol. -/
def incRefCount (st : TableState) (storage : List Nat) : Option TableState :=
  match decodeSymbols (payloadOf storage) with
  | none => none
  | some syms => incSymbols st syms

/-! ### `join` and `populateList` (state effects; bodies in the missing `.cc`) -/

/-- Concatenation of byte lists. -/
def concatAll : List (List Nat) → List Nat
  | [] => []
  | b :: bs => b ++ concatAll bs

/-- Modelled from the spec (`SymbolTableImpl::join`): concatenate the
payloads of the parts (empty parts contribute nothing), increment the ref
count of every embedded token for the new storage, and prefix the result
with a fresh length header; the payload cap applies as in `encode`. -/
def join (st : TableState) (storages : List (List Nat)) : Option (TableState × List Nat) :=
  let payload := concatAll (storages.map payloadOf)
  match decodeSymbols payload with
  | none => none
  | some syms =>
    match incSymbols st syms with
    | none => none
    | some st1 =>
      match moveToStorage payload with
      | .ok storage => some (st1, storage)
      | .assertFail => none

/-- Modelled from the spec: encode each name of a list in order
(`populateList` runs `addTokensToEncoding` per name). -/
def encodeAll (st : TableState) : List (List Char) → Option (TableState × List (List Nat))
  | [] => some (st, [])
  | n :: rest =>
    match encode st n with
    | none => none
    | some (st1, b) =>
      match encodeAll st1 rest with
      | none => none
      | some (st2, bs) => some (st2, b :: bs)

/-- Modelled from the spec (`SymbolTableImpl::populateList`):
`RELEASE_ASSERT(num_names < 256)` then encode every name and pack the
storages behind a one-byte count. -/
def populateList (st : TableState) (names : List (List Char)) :
    Option (TableState × List Nat) :=
  if names.length < 256 then
    match encodeAll st names with
    | none => none
    | some (st1, bs) => some (st1, names.length :: concatAll bs)
  else none

/-! ### `lessThan` (body in the missing `.cc`) -/

/-- Modelled from the spec: byte-wise lexicographic string order
(`absl::string_view` `operator<` on the UTF-8 bytes; UTF-8 byte order
agrees with code-point order, compared here via `Char.toNat`). -/
def strLt : List Char → List Char → Bool
  | _, [] => false
  | [], _ :: _ => true
  | a :: as, b :: bs =>
    if a.toNat < b.toNat then true
    else if b.toNat < a.toNat then false
    else strLt as bs

/-- Modelled from the spec (`SymbolTableImpl::lessThan`): compare the
strings of successive tokens; on a common prefix the shorter name sorts
earlier. -/
def tokensLt : List Tok → List Tok → Bool
  | _, [] => false
  | [], _ :: _ => true
  | t :: ts, u :: us => if t = u then tokensLt ts us else strLt t u

/-- The decoded token list of a handle: the symbol stream looked up in
the reverse map (shared by `toString` and `lessThan`). -/
def decodedTokens (st : TableState) (storage : List Nat) : Option (List Tok) :=
  match decodeSymbols (payloadOf storage) with
  | none => none
  | some syms => lookupAll st syms

/-- Modelled from the spec (`SymbolTableImpl::lessThan`): decode both
streams and compare token-string-wise; a decode failure or unknown id is
fatal (`none`). -/
def lessThan (st : TableState) (a b : List Nat) : Option Bool :=
  match decodedTokens st a, decodedTokens st b with
  | some ts, some us => some (tokensLt ts us)
  | _, _ => none

/-! ### Reachable table states

All mutating operations of the public interface, starting from a freshly
constructed table.  A step only exists when the operation completes
(a fatal assertion leaves no resulting state). -/

/-- States reachable by any sequence of `encode`, `free`, `incRefCount`,
`join` and `populateList` operations. -/
inductive Reachable : TableState → Prop
  | init : Reachable initState
  | encode {st st' : TableState} {name : List Char} {b : List Nat} :
      Reachable st → encode st name = some (st', b) → Reachable st'
  | free {st st' : TableState} {b : List Nat} :
      Reachable st → free st b = some st' → Reachable st'
  | incRefCount {st st' : TableState} {b : List Nat} :
      Reachable st → incRefCount st b = some st' → Reachable st'
  | join {st st' : TableState} {bs : List (List Nat)} {b : List Nat} :
      Reachable st → join st bs = some (st', b) → Reachable st'
  | populateList {st st' : TableState} {names : List (List Char)} {b : List Nat} :
      Reachable st → populateList st names = some (st', b) → Reachable st'

/-! ### Well-formedness invariant of the table state -/

/-- The internal invariants of `SymbolTableImpl` (spec §3 "Invariants"):
unique keys in both maps, mutual consistency of the maps
(`forward[reverse[i]].id == i`), positive ref counts, the free pool
disjoint from the reverse map, and every known id below the monotonic
counter. -/
structure WF (st : TableState) : Prop where
  decode_keys_nodup : (st.decode_map.map Prod.fst).Nodup
  encode_keys_nodup : (st.encode_map.map Prod.fst).Nodup
  pool_nodup : st.pool.Nodup
  forward_back : ∀ s t, (s, t) ∈ st.decode_map →
    ∃ e, alookup st.encode_map t = some e ∧ e.symbol = s
  back_forward : ∀ t e, (t, e) ∈ st.encode_map →
    alookup st.decode_map e.symbol = some t
  ref_pos : ∀ t e, (t, e) ∈ st.encode_map → 1 ≤ e.ref_count
  pool_decode : ∀ s ∈ st.pool, alookup st.decode_map s = none
  pool_lt : ∀ s ∈ st.pool, s < st.monotonic_counter
  decode_lt : ∀ s t, (s, t) ∈ st.decode_map → s < st.monotonic_counter

/-! ### The StatName handle as a (possibly null) pointer

`StatName` stores a raw `const uint8_t* size_and_data_`; the default
constructor sets it to `nullptr`.  Every accessor reads through the
pointer with no null check; reading through a null pointer is a fault,
modelled as `none`. -/

/-- A `StatName`: `some buffer` for a handle over a size-prefixed buffer,
`none` for the default-constructed handle (`size_and_data_ = nullptr`). -/
def StatNamePtr := Option (List Nat)

/-- The default-constructed `StatName()`: a null `size_and_data_`. -/
def nullStatName : StatNamePtr := none

/-- A byte read through the `size_and_data_` pointer: faults (`none`) on a
null pointer (and on a read past the buffer). -/
def byteAt : StatNamePtr → Nat → Option Nat
  | none, _ => none
  | some buf, i => buf.get? i

/-- `StatName::dataSize` through the pointer: reads bytes 0 and 1
unconditionally — no null check in the source. -/
def dataSizeP (p : StatNamePtr) : Option Nat :=
  match byteAt p 0, byteAt p 1 with
  | some b0, some b1 => some (b0 + 256 * b1)
  | _, _ => none

/-- `StatName::size` through the pointer: `dataSize() + 2`, so it performs
the same unchecked reads. -/
def sizeP (p : StatNamePtr) : Option Nat :=
  match dataSizeP p with
  | some n => some (n + StatNameSizeEncodingBytes)
  | none => none

/-- `StatName::data` through the pointer: `size_and_data_ + 2`, with the
`dataSize()` bytes that the accessors read; null pointer faults. -/
def dataP (p : StatNamePtr) : Option (List Nat) :=
  match p, dataSizeP p with
  | some buf, some n => some ((buf.drop StatNameSizeEncodingBytes).take n)
  | _, _ => none

/-- `StatName::hash` through the pointer: hashes the `dataSize()` bytes at
`data()`; both reads dereference the pointer. -/
def hashP (p : StatNamePtr) : Option Nat :=
  match dataP p with
  | some bytes => some (xxHash64 bytes)
  | none => none

/-- `StatName::operator==` through the pointer: compares `dataSize()` and
`memcmp`s the data bytes of both sides; either side being null faults. -/
def eqP (p q : StatNamePtr) : Option Bool :=
  match dataSizeP p, dataSizeP q, dataP p, dataP q with
  | some n1, some n2, some a, some b => some (decide (n1 = n2) && decide (a = b))
  | _, _, _, _ => none

/-- `StatName::copyToStorage` through the pointer: `memcpy(storage,
size_and_data_, size())` reads `size()` bytes from the pointer; returns
the bytes copied. -/
def copyToStorageP (p : StatNamePtr) : Option (List Nat) :=
  match p, sizeP p with
  | some buf, some n => some (buf.take n)
  | _, _ => none

/-! ## Lemmas about the varint encoding -/

theorem statNameMaxSize_eq : StatNameMaxSize = 65536 := rfl

theorem varintBytes_ne_nil (n : Nat) : varintBytes n ≠ [] := by
  rw [varintBytes_eq]
  by_cases h : n < 128 <;> simp [h]

theorem varintBytes_lt_256 (n : Nat) : ∀ b ∈ varintBytes n, b < 256 := by
  induction n using Nat.strong_induction_on with
  | _ n ih =>
    intro b hb
    rw [varintBytes_eq] at hb
    by_cases h : n < 128
    · simp [h] at hb; omega
    · simp [h] at hb
      rcases hb with hb | hb
      · omega
      · exact ih (n / 128) (Nat.div_lt_self (by omega) (by omega)) b hb

theorem decodeSymbolsAux_varint_append (n : Nat) :
    ∀ shift acc rest,
      decodeSymbolsAux (varintBytes n ++ rest) shift acc =
        (decodeSymbolsAux rest 0 0).map fun syms => (acc + n * 2 ^ shift) :: syms := by
  induction n using Nat.strong_induction_on with
  | _ n ih =>
    intro shift acc rest
    by_cases h : n < 128
    · rw [varintBytes_eq, if_pos h]
      simp only [List.singleton_append]
      rw [decodeSymbolsAux]
      have h1 : n % 256 = n := Nat.mod_eq_of_lt (by omega)
      have h2 : n % 128 = n := Nat.mod_eq_of_lt h
      rw [h1, if_pos h, h2]
      cases hr : decodeSymbolsAux rest 0 0 <;> simp
    · rw [varintBytes_eq, if_neg h]
      simp only [List.cons_append]
      rw [decodeSymbolsAux]
      have h1 : (n % 128 + 128) % 256 = n % 128 + 128 := Nat.mod_eq_of_lt (by omega)
      have h2 : ¬ (n % 128 + 128) % 256 < 128 := by rw [h1]; omega
      have h3 : (n % 128 + 128) % 128 = n % 128 := by omega
      rw [if_neg h2, h3,
        ih (n / 128) (Nat.div_lt_self (by omega) (by omega)) (shift + 7)
          (acc + n % 128 * 2 ^ shift) rest]
      have key : acc + n % 128 * 2 ^ shift + n / 128 * 2 ^ (shift + 7) =
          acc + n * 2 ^ shift := by
        have e1 : 2 ^ (shift + 7) = 2 ^ shift * 128 := by rw [pow_add]; norm_num
        have e2 : n % 128 + 128 * (n / 128) = n := Nat.mod_add_div n 128
        calc acc + n % 128 * 2 ^ shift + n / 128 * 2 ^ (shift + 7)
            = acc + (n % 128 + 128 * (n / 128)) * 2 ^ shift := by rw [e1]; ring
          _ = acc + n * 2 ^ shift := by rw [e2]
      rw [← key]

/-- The varint stream of a symbol sequence decodes back to exactly that
sequence: the format needs no separator. -/
theorem decodeSymbols_symbolsBytes (syms : List Symbol) :
    decodeSymbols (symbolsBytes syms) = some syms := by
  induction syms with
  | nil => rfl
  | cons s rest ih =>
    unfold decodeSymbols at *
    rw [symbolsBytes, decodeSymbolsAux_varint_append, ih]
    simp

/-- Per-byte characterization of the varint of one id: byte `i` holds bits
`7i … 7i+6` of the id in its low 7 bits; the high bit is set on every byte
except the last. -/
theorem varintBytes_getD (n : Nat) :
    ∀ i, i < (varintBytes n).length →
      (varintBytes n).getD i 0 =
        n / 128 ^ i % 128 + (if i + 1 < (varintBytes n).length then 128 else 0) := by
  induction n using Nat.strong_induction_on with
  | _ n ih =>
    intro i hi
    by_cases h : n < 128
    · rw [varintBytes_eq, if_pos h] at hi ⊢
      simp at hi
      subst hi
      simp [Nat.mod_eq_of_lt h]
    · rw [varintBytes_eq, if_neg h] at hi ⊢
      cases i with
      | zero =>
        have hlen : 0 < (varintBytes (n / 128)).length := by
          cases hv : varintBytes (n / 128) with
          | nil => exact absurd hv (varintBytes_ne_nil _)
          | cons a l => simp
        simp [hlen]
      | succ j =>
        simp only [List.length_cons, Nat.succ_lt_succ_iff] at hi
        have := ih (n / 128) (Nat.div_lt_self (by omega) (by omega)) j hi
        simp only [List.getD_cons_succ, List.length_cons, Nat.succ_lt_succ_iff]
        rw [this]
        have e1 : n / 128 / 128 ^ j = n / 128 ^ (j + 1) := by
          rw [Nat.div_div_eq_div_mul, pow_succ, mul_comm (128 ^ j) 128, ← pow_succ']
        rw [e1]

/-! ## Lemmas about the length header and storage layout -/

theorem writeLengthReturningNext_lt {len : Nat} (h : len < StatNameMaxSize) :
    writeLengthReturningNext len = some [len % 256, len / 256] := by
  have h65536 : len < 65536 := by rw [statNameMaxSize_eq] at h; exact h
  unfold writeLengthReturningNext
  rw [if_pos h]
  have : len / 256 % 256 = len / 256 := Nat.mod_eq_of_lt (by omega)
  rw [this]

theorem dataSizeOf_header {len : Nat} (h : len < StatNameMaxSize) (data : List Nat) :
    dataSizeOf ([len % 256, len / 256] ++ data) = len := by
  have h65536 : len < 65536 := by rw [statNameMaxSize_eq] at h; exact h
  unfold dataSizeOf
  simp [List.getD]
  omega

theorem payloadOf_header {vec : List Nat} (h : vec.length < StatNameMaxSize) :
    payloadOf ([vec.length % 256, vec.length / 256] ++ vec) = vec := by
  unfold payloadOf
  rw [dataSizeOf_header h]
  simp [StatNameSizeEncodingBytes]

theorem moveToStorage_ok {vec : List Nat} (h : vec.length < StatNameMaxSize) :
    moveToStorage vec = .ok ([vec.length % 256, vec.length / 256] ++ vec) := by
  unfold moveToStorage
  rw [writeLengthReturningNext_lt h]

theorem moveToStorage_payload {vec storage : List Nat}
    (h : moveToStorage vec = .ok storage) : payloadOf storage = vec := by
  unfold moveToStorage at h
  by_cases hlt : vec.length < StatNameMaxSize
  · rw [writeLengthReturningNext_lt hlt] at h
    cases h
    exact payloadOf_header hlt
  · unfold writeLengthReturningNext at h
    rw [if_neg hlt] at h
    cases h

theorem moveToStorage_assertFail {vec : List Nat} (h : ¬ vec.length < StatNameMaxSize) :
    moveToStorage vec = .assertFail := by
  unfold moveToStorage writeLengthReturningNext
  rw [if_neg h]

theorem encode_eq (st : TableState) (name : List Char) :
    encode st name =
      match moveToStorage (symbolsBytes (internAll st (tokensOf name)).2) with
      | .ok storage => some ((internAll st (tokensOf name)).1, storage)
      | .assertFail => none := rfl

/-! ## Association-list lemmas -/

section AssocLemmas

variable {κ ν : Type} [DecidableEq κ]

theorem alookup_mem {l : List (κ × ν)} {k : κ} {v : ν} (h : alookup l k = some v) :
    (k, v) ∈ l := by
  induction l with
  | nil => cases h
  | cons p rest ih =>
    obtain ⟨k0, v0⟩ := p
    rw [alookup] at h
    by_cases hk : k0 = k
    · rw [if_pos hk] at h
      cases h
      subst hk
      exact List.mem_cons_self _ _
    · rw [if_neg hk] at h
      exact List.mem_cons_of_mem _ (ih h)

theorem alookup_eq_none {l : List (κ × ν)} {k : κ} :
    alookup l k = none ↔ ∀ v, (k, v) ∉ l := by
  induction l with
  | nil => simp [alookup]
  | cons p rest ih =>
    obtain ⟨k0, v0⟩ := p
    rw [alookup]
    by_cases hk : k0 = k
    · subst hk
      rw [if_pos rfl]
      constructor
      · intro h
        cases h
      · intro h
        exact absurd (List.mem_cons_self _ _) (h v0)
    · rw [if_neg hk, ih]
      constructor
      · intro h v hv
        rcases List.mem_cons.mp hv with hv | hv
        · exact hk (congrArg Prod.fst hv).symm
        · exact h v hv
      · intro h v hv
        exact h v (List.mem_cons_of_mem _ hv)

theorem mem_alookup {l : List (κ × ν)} {k : κ} {v : ν}
    (hnd : (l.map Prod.fst).Nodup) (h : (k, v) ∈ l) : alookup l k = some v := by
  induction l with
  | nil => cases h
  | cons p rest ih =>
    obtain ⟨k0, v0⟩ := p
    rw [List.map_cons, List.nodup_cons] at hnd
    rw [alookup]
    rcases List.mem_cons.mp h with h0 | h0
    · cases h0
      rw [if_pos rfl]
    · have hk : k0 ≠ k := by
        intro hk
        subst hk
        exact hnd.1 (List.mem_map.mpr ⟨(k0, v), h0, rfl⟩)
      rw [if_neg hk]
      exact ih hnd.2 h0

theorem alookup_isSome {l : List (κ × ν)} {k : κ} :
    (alookup l k).isSome = true ↔ ∃ v, (k, v) ∈ l := by
  cases h : alookup l k with
  | none =>
    rw [alookup_eq_none] at h
    simp only [Option.isSome_none, Bool.false_eq_true, false_iff, not_exists]
    exact h
  | some v =>
    simp only [Option.isSome_some, true_iff]
    exact ⟨v, alookup_mem h⟩

theorem alookup_amodify_self (l : List (κ × ν)) (k : κ) (f : ν → ν) :
    alookup (amodify l k f) k = (alookup l k).map f := by
  induction l with
  | nil => rfl
  | cons p rest ih =>
    obtain ⟨k0, v0⟩ := p
    by_cases hk : k0 = k
    · rw [amodify, if_pos hk, alookup, if_pos hk, alookup, if_pos hk]
      rfl
    · rw [amodify, if_neg hk, alookup, if_neg hk, alookup, if_neg hk, ih]

theorem alookup_amodify_ne {k' k : κ} (hne : k' ≠ k) (l : List (κ × ν)) (f : ν → ν) :
    alookup (amodify l k f) k' = alookup l k' := by
  induction l with
  | nil => rfl
  | cons p rest ih =>
    obtain ⟨k0, v0⟩ := p
    by_cases hk : k0 = k
    · have h0 : ¬ k0 = k' := fun h => hne (h ▸ hk)
      rw [amodify, if_pos hk, alookup, if_neg h0, alookup, if_neg h0, ih]
    · rw [amodify, if_neg hk, alookup, alookup]
      by_cases h0 : k0 = k'
      · rw [if_pos h0, if_pos h0]
      · rw [if_neg h0, if_neg h0, ih]

theorem alookup_aerase_ne {k' k : κ} (hne : k' ≠ k) (l : List (κ × ν)) :
    alookup (aerase l k) k' = alookup l k' := by
  induction l with
  | nil => rfl
  | cons p rest ih =>
    obtain ⟨k0, v0⟩ := p
    rw [aerase]
    by_cases hk : k0 = k
    · have h0 : ¬ k0 = k' := fun h => hne (h ▸ hk)
      rw [if_pos hk, alookup, if_neg h0]
    · rw [if_neg hk, alookup, alookup]
      by_cases h0 : k0 = k'
      · rw [if_pos h0, if_pos h0]
      · rw [if_neg h0, if_neg h0, ih]

theorem amodify_keys (l : List (κ × ν)) (k : κ) (f : ν → ν) :
    (amodify l k f).map Prod.fst = l.map Prod.fst := by
  induction l with
  | nil => rfl
  | cons p rest ih =>
    obtain ⟨k0, v0⟩ := p
    by_cases hk : k0 = k
    · rw [amodify, if_pos hk, List.map_cons, List.map_cons, ih]
    · rw [amodify, if_neg hk, List.map_cons, List.map_cons, ih]

theorem mem_amodify {l : List (κ × ν)} {k' : κ} {v : ν} (k : κ) (f : ν → ν)
    (h : (k', v) ∈ amodify l k f) :
    (k' ≠ k ∧ (k', v) ∈ l) ∨ (k' = k ∧ ∃ v0, (k, v0) ∈ l ∧ v = f v0) := by
  induction l with
  | nil => cases h
  | cons p rest ih =>
    obtain ⟨k0, v0⟩ := p
    by_cases hk : k0 = k
    · rw [amodify, if_pos hk] at h
      rcases List.mem_cons.mp h with h0 | h0
      · obtain ⟨h1, h2⟩ := Prod.mk.injEq .. ▸ h0
        subst hk h1 h2
        exact Or.inr ⟨rfl, v0, List.mem_cons_self _ _, rfl⟩
      · rcases ih h0 with h1 | h1
        · exact Or.inl ⟨h1.1, List.mem_cons_of_mem _ h1.2⟩
        · obtain ⟨he, v1, hv1, hv2⟩ := h1
          exact Or.inr ⟨he, v1, List.mem_cons_of_mem _ hv1, hv2⟩
    · rw [amodify, if_neg hk] at h
      rcases List.mem_cons.mp h with h0 | h0
      · obtain ⟨h1, h2⟩ := Prod.mk.injEq .. ▸ h0
        subst h1 h2
        exact Or.inl ⟨hk, List.mem_cons_self _ _⟩
      · rcases ih h0 with h1 | h1
        · exact Or.inl ⟨h1.1, List.mem_cons_of_mem _ h1.2⟩
        · obtain ⟨he, v1, hv1, hv2⟩ := h1
          exact Or.inr ⟨he, v1, List.mem_cons_of_mem _ hv1, hv2⟩

theorem mem_of_mem_aerase {l : List (κ × ν)} {k : κ} {p : κ × ν}
    (h : p ∈ aerase l k) : p ∈ l := by
  induction l with
  | nil => cases h
  | cons q rest ih =>
    obtain ⟨k0, v0⟩ := q
    rw [aerase] at h
    by_cases hk : k0 = k
    · rw [if_pos hk] at h
      exact List.mem_cons_of_mem _ h
    · rw [if_neg hk] at h
      rcases List.mem_cons.mp h with h0 | h0
      · exact h0 ▸ List.mem_cons_self _ _
      · exact List.mem_cons_of_mem _ (ih h0)

theorem aerase_keys_sublist (l : List (κ × ν)) (k : κ) :
    List.Sublist ((aerase l k).map Prod.fst) (l.map Prod.fst) := by
  induction l with
  | nil => exact List.Sublist.refl _
  | cons q rest ih =>
    obtain ⟨k0, v0⟩ := q
    rw [aerase]
    by_cases hk : k0 = k
    · rw [if_pos hk, List.map_cons]
      exact List.Sublist.cons _ (List.Sublist.refl _)
    · rw [if_neg hk, List.map_cons, List.map_cons]
      exact List.Sublist.cons₂ _ ih

theorem aerase_cons_self (k : κ) (v : ν) (l : List (κ × ν)) :
    aerase ((k, v) :: l) k = l := by
  rw [aerase, if_pos rfl]

theorem alookup_aerase_self {l : List (κ × ν)} {k : κ}
    (hnd : (l.map Prod.fst).Nodup) : alookup (aerase l k) k = none := by
  induction l with
  | nil => rfl
  | cons q rest ih =>
    obtain ⟨k0, v0⟩ := q
    rw [List.map_cons, List.nodup_cons] at hnd
    rw [aerase]
    by_cases hk : k0 = k
    · rw [if_pos hk]
      subst hk
      rw [alookup_eq_none]
      intro v hv
      exact hnd.1 (List.mem_map.mpr ⟨(k0, v), hv, rfl⟩)
    · rw [if_neg hk, alookup, if_neg hk]
      exact ih hnd.2

theorem amodify_amodify_self (l : List (κ × ν)) (k : κ) (f g : ν → ν) :
    amodify (amodify l k f) k g = amodify l k (fun v => g (f v)) := by
  induction l with
  | nil => rfl
  | cons p rest ih =>
    obtain ⟨k0, v0⟩ := p
    by_cases hk : k0 = k
    · rw [amodify, if_pos hk, amodify, if_pos hk, amodify, if_pos hk, ih]
    · rw [amodify, if_neg hk, amodify, if_neg hk, amodify, if_neg hk, ih]

theorem amodify_congr {l : List (κ × ν)} {k : κ} {f g : ν → ν}
    (h : ∀ v, (k, v) ∈ l → f v = g v) : amodify l k f = amodify l k g := by
  induction l with
  | nil => rfl
  | cons p rest ih =>
    obtain ⟨k0, v0⟩ := p
    have hrest : ∀ v, (k, v) ∈ rest → f v = g v :=
      fun v hv => h v (List.mem_cons_of_mem _ hv)
    by_cases hk : k0 = k
    · subst hk
      rw [amodify, if_pos rfl, amodify, if_pos rfl,
        h v0 (List.mem_cons_self _ _), ih hrest]
    · rw [amodify, if_neg hk, amodify, if_neg hk, ih hrest]

theorem amodify_id (l : List (κ × ν)) (k : κ) : amodify l k (fun v => v) = l := by
  induction l with
  | nil => rfl
  | cons p rest ih =>
    obtain ⟨k0, v0⟩ := p
    by_cases hk : k0 = k
    · rw [amodify, if_pos hk, ih]
    · rw [amodify, if_neg hk, ih]

theorem amodify_amodify_ne {k1 k2 : κ} (hne : k1 ≠ k2) (l : List (κ × ν)) (f g : ν → ν) :
    amodify (amodify l k1 f) k2 g = amodify (amodify l k2 g) k1 f := by
  induction l with
  | nil => rfl
  | cons p rest ih =>
    obtain ⟨k0, v0⟩ := p
    by_cases h1 : k0 = k1
    · have h2 : ¬ k0 = k2 := fun h => hne (h1 ▸ h)
      rw [amodify, if_pos h1, amodify, if_neg h2, amodify, if_neg h2, amodify,
        if_pos h1, ih]
    · by_cases h2 : k0 = k2
      · rw [amodify, if_neg h1, amodify, if_pos h2, amodify, if_pos h2, amodify,
          if_neg h1, ih]
      · rw [amodify, if_neg h1, amodify, if_neg h2, amodify, if_neg h2, amodify,
          if_neg h1, ih]

theorem aerase_amodify_ne {k1 k2 : κ} (hne : k1 ≠ k2) (l : List (κ × ν)) (f : ν → ν) :
    aerase (amodify l k1 f) k2 = amodify (aerase l k2) k1 f := by
  induction l with
  | nil => rfl
  | cons q rest ih =>
    obtain ⟨k0, v0⟩ := q
    by_cases h1 : k0 = k1
    · have h2 : ¬ k0 = k2 := fun h => hne (h1 ▸ h)
      rw [amodify, if_pos h1, aerase, if_neg h2, aerase, if_neg h2, amodify,
        if_pos h1, ih]
    · by_cases h2 : k0 = k2
      · rw [amodify, if_neg h1, aerase, if_pos h2, aerase, if_pos h2]
      · rw [amodify, if_neg h1, aerase, if_neg h2, aerase, if_neg h2, amodify,
          if_neg h1, ih]

theorem aerase_aerase_comm (l : List (κ × ν)) (k1 k2 : κ) (hne : k1 ≠ k2) :
    aerase (aerase l k1) k2 = aerase (aerase l k2) k1 := by
  induction l with
  | nil => rfl
  | cons q rest ih =>
    obtain ⟨k0, v0⟩ := q
    by_cases h1 : k0 = k1
    · have h2 : ¬ k0 = k2 := fun h => hne (h1 ▸ h)
      rw [aerase, if_pos h1, aerase, if_neg h2, aerase, if_pos h1]
    · by_cases h2 : k0 = k2
      · rw [aerase, if_neg h1, aerase, if_pos h2, aerase, if_pos h2]
      · rw [aerase, if_neg h1, aerase, if_neg h2, aerase, if_neg h2, aerase,
          if_neg h1, ih]

end AssocLemmas

/-! ## Key-set helpers -/

theorem mem_keys {κ ν : Type} {l : List (κ × ν)} {k : κ} :
    k ∈ l.map Prod.fst ↔ ∃ v, (k, v) ∈ l := by
  rw [List.mem_map]
  constructor
  · rintro ⟨⟨k0, v0⟩, hm, rfl⟩
    exact ⟨v0, hm⟩
  · rintro ⟨v, hv⟩
    exact ⟨(k, v), hv, rfl⟩

theorem not_key_of_alookup_none {κ ν : Type} [DecidableEq κ] {l : List (κ × ν)} {k : κ}
    (h : alookup l k = none) : k ∉ l.map Prod.fst := by
  rw [mem_keys]
  rintro ⟨v, hv⟩
  exact (alookup_eq_none.mp h) v hv

/-! ## Case equations for `toSymbol` -/

theorem toSymbol_eq_found {st : TableState} {t : Tok} {e : SharedSymbol}
    (h : alookup st.encode_map t = some e) :
    toSymbol st t =
      ({ st with
          encode_map :=
            amodify st.encode_map t
              (fun e0 => { e0 with ref_count := e0.ref_count + 1 }) },
        e.symbol) := by
  unfold toSymbol
  rw [h]

theorem toSymbol_eq_pool {st : TableState} {t : Tok} {s : Symbol} {rest : List Symbol}
    (h : alookup st.encode_map t = none) (hp : st.pool = s :: rest) :
    toSymbol st t =
      ({ st with encode_map := (t, ⟨s, 1⟩) :: st.encode_map,
                 decode_map := (s, t) :: st.decode_map,
                 pool := rest }, s) := by
  unfold toSymbol
  rw [h, hp]

theorem toSymbol_eq_mint {st : TableState} {t : Tok}
    (h : alookup st.encode_map t = none) (hp : st.pool = []) :
    toSymbol st t =
      ({ st with encode_map := (t, ⟨st.monotonic_counter, 1⟩) :: st.encode_map,
                 decode_map := (st.monotonic_counter, t) :: st.decode_map,
                 monotonic_counter := st.monotonic_counter + 1 },
        st.monotonic_counter) := by
  unfold toSymbol
  rw [h, hp]

/-! ## `toSymbol` preserves the invariant and is monotone on the maps -/

theorem toSymbol_WF {st : TableState} {tk : Tok} (hwf : WF st) : WF (toSymbol st tk).1 := by
  cases hfind : alookup st.encode_map tk with
  | some e =>
    rw [toSymbol_eq_found hfind]
    refine ⟨hwf.decode_keys_nodup, ?_, hwf.pool_nodup, ?_, ?_, ?_,
      hwf.pool_decode, hwf.pool_lt, hwf.decode_lt⟩
    · show ((amodify st.encode_map tk _).map Prod.fst).Nodup
      rw [amodify_keys]
      exact hwf.encode_keys_nodup
    · intro s1 tok hmem
      obtain ⟨e1, he1, hsym⟩ := hwf.forward_back s1 tok hmem
      by_cases hk : tok = tk
      · subst hk
        show ∃ e2, alookup (amodify st.encode_map tok _) tok = some e2 ∧ e2.symbol = s1
        rw [alookup_amodify_self, he1]
        exact ⟨_, rfl, hsym⟩
      · show ∃ e2, alookup (amodify st.encode_map tk _) tok = some e2 ∧ e2.symbol = s1
        rw [alookup_amodify_ne hk]
        exact ⟨e1, he1, hsym⟩
    · intro tok e1 hmem
      rcases mem_amodify tk _ hmem with ⟨_, hm⟩ | ⟨heq, e0, hm, rfl⟩
      · exact hwf.back_forward tok e1 hm
      · rw [heq]
        exact hwf.back_forward tk e0 (heq ▸ hm)
    · intro tok e1 hmem
      rcases mem_amodify tk _ hmem with ⟨_, hm⟩ | ⟨heq, e0, hm, rfl⟩
      · exact hwf.ref_pos tok e1 hm
      · exact le_trans (hwf.ref_pos tk e0 hm) (Nat.le_succ _)
  | none =>
    cases hpool : st.pool with
    | cons sp rest =>
      rw [toSymbol_eq_pool hfind hpool]
      have hsd : alookup st.decode_map sp = none :=
        hwf.pool_decode sp (hpool ▸ List.mem_cons_self _ _)
      have hslt : sp < st.monotonic_counter :=
        hwf.pool_lt sp (hpool ▸ List.mem_cons_self _ _)
      have hpnd := hwf.pool_nodup
      rw [hpool, List.nodup_cons] at hpnd
      refine ⟨?_, ?_, hpnd.2, ?_, ?_, ?_, ?_, ?_, ?_⟩
      · rw [List.map_cons, List.nodup_cons]
        exact ⟨not_key_of_alookup_none hsd, hwf.decode_keys_nodup⟩
      · rw [List.map_cons, List.nodup_cons]
        exact ⟨not_key_of_alookup_none hfind, hwf.encode_keys_nodup⟩
      · intro s1 tok hmem
        rcases List.mem_cons.mp hmem with h0 | h0
        · injection h0 with h1 h2
          rw [h1, h2]
          exact ⟨⟨sp, 1⟩, by rw [alookup, if_pos rfl], rfl⟩
        · obtain ⟨e1, he1, hsym⟩ := hwf.forward_back s1 tok h0
          have hne : ¬ tk = tok := by
            intro hk
            rw [← hk, hfind] at he1
            cases he1
          rw [alookup, if_neg hne]
          exact ⟨e1, he1, hsym⟩
      · intro tok e1 hmem
        rcases List.mem_cons.mp hmem with h0 | h0
        · injection h0 with h1 h2
          rw [h1, h2]
          rw [show (⟨sp, 1⟩ : SharedSymbol).symbol = sp from rfl, alookup, if_pos rfl]
        · have hold := hwf.back_forward tok e1 h0
          have hne : ¬ sp = e1.symbol := by
            intro hk
            rw [← hk, hsd] at hold
            cases hold
          rw [alookup, if_neg hne]
          exact hold
      · intro tok e1 hmem
        rcases List.mem_cons.mp hmem with h0 | h0
        · injection h0 with h1 h2
          rw [h2]
        · exact hwf.ref_pos tok e1 h0
      · intro s1 hs1
        have hmem : s1 ∈ st.pool := hpool ▸ List.mem_cons_of_mem _ hs1
        have hne : ¬ sp = s1 := fun hk => hpnd.1 (hk ▸ hs1)
        rw [alookup, if_neg hne]
        exact hwf.pool_decode s1 hmem
      · intro s1 hs1
        exact hwf.pool_lt s1 (hpool ▸ List.mem_cons_of_mem _ hs1)
      · intro s1 tok hmem
        rcases List.mem_cons.mp hmem with h0 | h0
        · injection h0 with h1 _
          rw [h1]
          exact hslt
        · exact hwf.decode_lt s1 tok h0
    | nil =>
      rw [toSymbol_eq_mint hfind hpool]
      have hcd : alookup st.decode_map st.monotonic_counter = none := by
        rw [alookup_eq_none]
        intro tok hmem
        exact absurd (hwf.decode_lt _ tok hmem) (lt_irrefl _)
      refine ⟨?_, ?_, by rw [hpool]; exact List.nodup_nil, ?_, ?_, ?_, ?_, ?_, ?_⟩
      · rw [List.map_cons, List.nodup_cons]
        exact ⟨not_key_of_alookup_none hcd, hwf.decode_keys_nodup⟩
      · rw [List.map_cons, List.nodup_cons]
        exact ⟨not_key_of_alookup_none hfind, hwf.encode_keys_nodup⟩
      · intro s1 tok hmem
        rcases List.mem_cons.mp hmem with h0 | h0
        · injection h0 with h1 h2
          rw [h1, h2]
          exact ⟨⟨st.monotonic_counter, 1⟩, by rw [alookup, if_pos rfl], rfl⟩
        · obtain ⟨e1, he1, hsym⟩ := hwf.forward_back s1 tok h0
          have hne : ¬ tk = tok := by
            intro hk
            rw [← hk, hfind] at he1
            cases he1
          rw [alookup, if_neg hne]
          exact ⟨e1, he1, hsym⟩
      · intro tok e1 hmem
        rcases List.mem_cons.mp hmem with h0 | h0
        · injection h0 with h1 h2
          rw [h1, h2]
          rw [show (⟨st.monotonic_counter, 1⟩ : SharedSymbol).symbol =
            st.monotonic_counter from rfl, alookup, if_pos rfl]
        · have hold := hwf.back_forward tok e1 h0
          have hne : ¬ st.monotonic_counter = e1.symbol := by
            intro hk
            rw [← hk, hcd] at hold
            cases hold
          rw [alookup, if_neg hne]
          exact hold
      · intro tok e1 hmem
        rcases List.mem_cons.mp hmem with h0 | h0
        · injection h0 with h1 h2
          rw [h2]
        · exact hwf.ref_pos tok e1 h0
      · intro s1 hs1
        rw [hpool] at hs1
        cases hs1
      · intro s1 hs1
        rw [hpool] at hs1
        cases hs1
      · intro s1 tok hmem
        rcases List.mem_cons.mp hmem with h0 | h0
        · injection h0 with h1 _
          rw [h1]
          exact Nat.lt_succ_self _
        · exact Nat.lt_succ_of_lt (hwf.decode_lt s1 tok h0)

theorem toSymbol_decode_mono {st : TableState} {tk : Tok} {s : Symbol} {tok : Tok}
    (hwf : WF st) (h : alookup st.decode_map s = some tok) :
    alookup (toSymbol st tk).1.decode_map s = some tok := by
  cases hfind : alookup st.encode_map tk with
  | some e =>
    rw [toSymbol_eq_found hfind]
    exact h
  | none =>
    cases hpool : st.pool with
    | cons sp rest =>
      rw [toSymbol_eq_pool hfind hpool]
      have hsd : alookup st.decode_map sp = none :=
        hwf.pool_decode sp (hpool ▸ List.mem_cons_self _ _)
      have hne : ¬ sp = s := by
        intro hk
        rw [hk, h] at hsd
        cases hsd
      show alookup ((sp, tk) :: st.decode_map) s = some tok
      rw [alookup, if_neg hne]
      exact h
    | nil =>
      rw [toSymbol_eq_mint hfind hpool]
      have hcd : alookup st.decode_map st.monotonic_counter = none := by
        rw [alookup_eq_none]
        intro tok1 hmem
        exact absurd (hwf.decode_lt _ tok1 hmem) (lt_irrefl _)
      have hne : ¬ st.monotonic_counter = s := by
        intro hk
        rw [hk, h] at hcd
        cases hcd
      show alookup ((st.monotonic_counter, tk) :: st.decode_map) s = some tok
      rw [alookup, if_neg hne]
      exact h

theorem toSymbol_encode_mono {st : TableState} (tk : Tok) {k : Tok} {e : SharedSymbol}
    (h : alookup st.encode_map k = some e) :
    ∃ e1, alookup (toSymbol st tk).1.encode_map k = some e1 ∧
      e1.symbol = e.symbol ∧ e.ref_count ≤ e1.ref_count := by
  cases hfind : alookup st.encode_map tk with
  | some e0 =>
    rw [toSymbol_eq_found hfind]
    by_cases hk : k = tk
    · subst hk
      show ∃ e1, alookup (amodify st.encode_map k _) k = some e1 ∧ _
      rw [alookup_amodify_self, h]
      exact ⟨_, rfl, rfl, Nat.le_succ _⟩
    · show ∃ e1, alookup (amodify st.encode_map tk _) k = some e1 ∧ _
      rw [alookup_amodify_ne hk]
      exact ⟨e, h, rfl, le_refl _⟩
  | none =>
    have hk : ¬ tk = k := by
      intro hk
      rw [hk, h] at hfind
      cases hfind
    cases hpool : st.pool with
    | cons sp rest =>
      rw [toSymbol_eq_pool hfind hpool]
      show ∃ e1, alookup ((tk, ⟨sp, 1⟩) :: st.encode_map) k = some e1 ∧ _
      rw [alookup, if_neg hk]
      exact ⟨e, h, rfl, le_refl _⟩
    | nil =>
      rw [toSymbol_eq_mint hfind hpool]
      show ∃ e1, alookup ((tk, ⟨st.monotonic_counter, 1⟩) :: st.encode_map) k = some e1 ∧ _
      rw [alookup, if_neg hk]
      exact ⟨e, h, rfl, le_refl _⟩

theorem toSymbol_result {st : TableState} (tk : Tok) (hwf : WF st) :
    alookup (toSymbol st tk).1.decode_map (toSymbol st tk).2 = some tk ∧
    ∃ e, alookup (toSymbol st tk).1.encode_map tk = some e ∧
      e.symbol = (toSymbol st tk).2 := by
  cases hfind : alookup st.encode_map tk with
  | some e =>
    rw [toSymbol_eq_found hfind]
    constructor
    · exact hwf.back_forward tk e (alookup_mem hfind)
    · show ∃ e1, alookup (amodify st.encode_map tk _) tk = some e1 ∧ _
      rw [alookup_amodify_self, hfind]
      exact ⟨_, rfl, rfl⟩
  | none =>
    cases hpool : st.pool with
    | cons sp rest =>
      rw [toSymbol_eq_pool hfind hpool]
      refine ⟨by rw [alookup, if_pos rfl], ⟨sp, 1⟩, by rw [alookup, if_pos rfl], rfl⟩
    | nil =>
      rw [toSymbol_eq_mint hfind hpool]
      refine ⟨by rw [alookup, if_pos rfl], ⟨st.monotonic_counter, 1⟩,
        by rw [alookup, if_pos rfl], rfl⟩

theorem toSymbol_found_symbol {st : TableState} {tk : Tok} {e : SharedSymbol}
    (h : alookup st.encode_map tk = some e) : (toSymbol st tk).2 = e.symbol := by
  rw [toSymbol_eq_found h]

/-! ## `internAll`: interning a token list -/

theorem internAll_cons (st : TableState) (t : Tok) (ts : List Tok) :
    internAll st (t :: ts) =
      ((internAll (toSymbol st t).1 ts).1,
        (toSymbol st t).2 :: (internAll (toSymbol st t).1 ts).2) := rfl

theorem internAll_WF {st : TableState} (toks : List Tok) (hwf : WF st) :
    WF (internAll st toks).1 := by
  induction toks generalizing st with
  | nil => exact hwf
  | cons t ts ih =>
    rw [internAll_cons]
    exact ih (toSymbol_WF hwf)

theorem internAll_decode_mono {st : TableState} (toks : List Tok) {s : Symbol} {tok : Tok}
    (hwf : WF st) (h : alookup st.decode_map s = some tok) :
    alookup (internAll st toks).1.decode_map s = some tok := by
  induction toks generalizing st with
  | nil => exact h
  | cons t ts ih =>
    rw [internAll_cons]
    exact ih (toSymbol_WF hwf) (toSymbol_decode_mono hwf h)

theorem internAll_encode_mono {st : TableState} (toks : List Tok) {k : Tok}
    {e : SharedSymbol} (h : alookup st.encode_map k = some e) :
    ∃ e1, alookup (internAll st toks).1.encode_map k = some e1 ∧
      e1.symbol = e.symbol ∧ e.ref_count ≤ e1.ref_count := by
  induction toks generalizing st e with
  | nil => exact ⟨e, h, rfl, le_refl _⟩
  | cons t ts ih =>
    rw [internAll_cons]
    obtain ⟨e1, he1, hsym, hrc⟩ := toSymbol_encode_mono t h
    obtain ⟨e2, he2, hsym2, hrc2⟩ := ih he1
    exact ⟨e2, he2, hsym2.trans hsym, le_trans hrc hrc2⟩

theorem internAll_length {st : TableState} (toks : List Tok) :
    (internAll st toks).2.length = toks.length := by
  induction toks generalizing st with
  | nil => rfl
  | cons t ts ih =>
    rw [internAll_cons]
    simp only [List.length_cons, ih]

/-- Every interned token can be looked up, in the final state, both ways:
its assigned symbol decodes back to it, and the forward map carries the
assigned symbol. -/
theorem internAll_spec {st : TableState} (toks : List Tok) (hwf : WF st) :
    List.Forall₂
      (fun tok s => alookup (internAll st toks).1.decode_map s = some tok ∧
        ∃ e, alookup (internAll st toks).1.encode_map tok = some e ∧ e.symbol = s)
      toks (internAll st toks).2 := by
  induction toks generalizing st with
  | nil => exact List.Forall₂.nil
  | cons t ts ih =>
    rw [internAll_cons]
    refine List.Forall₂.cons ?_ (ih (toSymbol_WF hwf))
    obtain ⟨hdec, e, henc, hsym⟩ := toSymbol_result t hwf
    constructor
    · exact internAll_decode_mono ts (toSymbol_WF hwf) hdec
    · obtain ⟨e1, he1, hsym1, _⟩ := internAll_encode_mono ts henc
      exact ⟨e1, he1, hsym1.trans hsym⟩

/-- Interning a token list whose members are all present with the given
symbols returns exactly those symbols (a re-encode reuses the ids). -/
theorem internAll_found {st : TableState} {toks : List Tok} {syms : List Symbol}
    (h : List.Forall₂
      (fun tok s => ∃ e, alookup st.encode_map tok = some e ∧ e.symbol = s)
      toks syms) :
    (internAll st toks).2 = syms := by
  induction toks generalizing st syms with
  | nil =>
    cases h
    rfl
  | cons t ts ih =>
    cases h with
    | cons hts hrest =>
      rw [internAll_cons]
      obtain ⟨e, he, hsym⟩ := hts
      rw [toSymbol_found_symbol he, hsym]
      rw [ih (hrest.imp ?_)]
      intro tok s1 hs1
      obtain ⟨e1, he1, hsym1⟩ := hs1
      obtain ⟨e2, he2, hsym2, _⟩ := toSymbol_encode_mono t he1
      exact ⟨e2, he2, hsym2.trans hsym1⟩

/-! ## Derived facts about a well-formed state -/

theorem WF.decode_encode {st : TableState} (hwf : WF st) {s : Symbol} {t : Tok}
    (hd : alookup st.decode_map s = some t) :
    ∃ e, alookup st.encode_map t = some e ∧ e.symbol = s :=
  hwf.forward_back s t (alookup_mem hd)

theorem WF.encode_decode {st : TableState} (hwf : WF st) {t : Tok} {e : SharedSymbol}
    (he : alookup st.encode_map t = some e) :
    alookup st.decode_map e.symbol = some t :=
  hwf.back_forward t e (alookup_mem he)

theorem WF.rc_pos {st : TableState} (hwf : WF st) {t : Tok} {e : SharedSymbol}
    (he : alookup st.encode_map t = some e) : 1 ≤ e.ref_count :=
  hwf.ref_pos t e (alookup_mem he)

theorem WF.decode_inj {st : TableState} (hwf : WF st) {a b : Symbol} {ta tb : Tok}
    (hd1 : alookup st.decode_map a = some ta) (hd2 : alookup st.decode_map b = some tb)
    (hne : a ≠ b) : ta ≠ tb := by
  intro hk
  subst hk
  obtain ⟨ea, hea, hsa⟩ := hwf.decode_encode hd1
  obtain ⟨eb, heb, hsb⟩ := hwf.decode_encode hd2
  rw [hea] at heb
  cases heb
  exact hne (hsa ▸ hsb ▸ rfl)

/-! ## Case equations for `freeOne` and `incOne` -/

theorem freeOne_eq_erase (st : TableState) {s : Symbol} {t : Tok} {e : SharedSymbol}
    (hd : alookup st.decode_map s = some t) (he : alookup st.encode_map t = some e)
    (hrc : e.ref_count = 1) :
    freeOne st s = some
      { st with
          encode_map := aerase st.encode_map t,
          decode_map := aerase st.decode_map s,
          pool := s :: st.pool } := by
  unfold freeOne
  simp only [hd, he]
  rw [if_pos hrc]

theorem freeOne_eq_dec (st : TableState) {s : Symbol} {t : Tok} {e : SharedSymbol}
    (hd : alookup st.decode_map s = some t) (he : alookup st.encode_map t = some e)
    (hrc : ¬ e.ref_count = 1) :
    freeOne st s = some
      { st with
          encode_map :=
            amodify st.encode_map t
              (fun e0 => { e0 with ref_count := e0.ref_count - 1 }) } := by
  unfold freeOne
  simp only [hd, he]
  rw [if_neg hrc]

theorem freeOne_none_of_decode_none (st : TableState) {s : Symbol}
    (hd : alookup st.decode_map s = none) : freeOne st s = none := by
  unfold freeOne
  rw [hd]

theorem incOne_eq {st : TableState} {s : Symbol} {t : Tok} {e : SharedSymbol}
    (hd : alookup st.decode_map s = some t) (he : alookup st.encode_map t = some e) :
    incOne st s = some
      { st with
          encode_map :=
            amodify st.encode_map t
              (fun e0 => { e0 with ref_count := e0.ref_count + 1 }) } := by
  unfold incOne
  simp only [hd, he]

theorem incOne_none_of_decode_none {st : TableState} {s : Symbol}
    (hd : alookup st.decode_map s = none) : incOne st s = none := by
  unfold incOne
  rw [hd]

theorem incOne_none_of_encode_none {st : TableState} {s : Symbol} {t : Tok}
    (hd : alookup st.decode_map s = some t) (he : alookup st.encode_map t = none) :
    incOne st s = none := by
  unfold incOne
  rw [hd]
  simp only [he]

/-! ## `freeOne` and `incOne` preserve the invariant -/

theorem freeOne_WF {st r : TableState} {s : Symbol} (hwf : WF st)
    (h : freeOne st s = some r) : WF r := by
  cases hd : alookup st.decode_map s with
  | none =>
    rw [freeOne_none_of_decode_none _ hd] at h
    cases h
  | some t =>
    obtain ⟨e, he, hsym⟩ := hwf.decode_encode hd
    by_cases hrc : e.ref_count = 1
    · rw [freeOne_eq_erase _ hd he hrc] at h
      cases h
      have hspool : s ∉ st.pool := by
        intro hs
        rw [hwf.pool_decode s hs] at hd
        cases hd
      refine ⟨?_, ?_, ?_, ?_, ?_, ?_, ?_, ?_, ?_⟩
      · exact hwf.decode_keys_nodup.sublist (aerase_keys_sublist _ _)
      · exact hwf.encode_keys_nodup.sublist (aerase_keys_sublist _ _)
      · rw [List.nodup_cons]
        exact ⟨hspool, hwf.pool_nodup⟩
      · intro s1 tok hmem
        have hmem0 := mem_of_mem_aerase hmem
        obtain ⟨e1, he1, hsym1⟩ := hwf.forward_back s1 tok hmem0
        have htok : tok ≠ t := by
          intro hk
          subst hk
          rw [he] at he1
          cases he1
          have hs1 : s1 = s := hsym1 ▸ hsym ▸ rfl
          subst hs1
          have : alookup (aerase st.decode_map s1) s1 = none :=
            alookup_aerase_self hwf.decode_keys_nodup
          have hnd : ((aerase st.decode_map s1).map Prod.fst).Nodup :=
            hwf.decode_keys_nodup.sublist (aerase_keys_sublist _ _)
          rw [mem_alookup hnd hmem] at this
          cases this
        rw [alookup_aerase_ne htok]
        exact ⟨e1, he1, hsym1⟩
      · intro tok e1 hmem
        have hmem0 := mem_of_mem_aerase hmem
        have hold := hwf.back_forward tok e1 hmem0
        have hsne : e1.symbol ≠ s := by
          intro hk
          rw [hk, hd] at hold
          cases hold
          have he1 : alookup st.encode_map t = some e1 :=
            mem_alookup hwf.encode_keys_nodup hmem0
          rw [he] at he1
          cases he1
          have hnd : ((aerase st.encode_map t).map Prod.fst).Nodup :=
            hwf.encode_keys_nodup.sublist (aerase_keys_sublist _ _)
          have : alookup (aerase st.encode_map t) t = none :=
            alookup_aerase_self hwf.encode_keys_nodup
          rw [mem_alookup hnd hmem] at this
          cases this
        rw [alookup_aerase_ne hsne]
        exact hold
      · intro tok e1 hmem
        exact hwf.ref_pos tok e1 (mem_of_mem_aerase hmem)
      · intro s1 hs1
        rcases List.mem_cons.mp hs1 with h0 | h0
        · subst h0
          exact alookup_aerase_self hwf.decode_keys_nodup
        · have hne : s1 ≠ s := by
            intro hk
            exact hspool (hk ▸ h0)
          rw [alookup_aerase_ne hne]
          exact hwf.pool_decode s1 h0
      · intro s1 hs1
        rcases List.mem_cons.mp hs1 with h0 | h0
        · subst h0
          exact hwf.decode_lt s1 t (alookup_mem hd)
        · exact hwf.pool_lt s1 h0
      · intro s1 tok hmem
        exact hwf.decode_lt s1 tok (mem_of_mem_aerase hmem)
    · rw [freeOne_eq_dec _ hd he hrc] at h
      cases h
      refine ⟨hwf.decode_keys_nodup, ?_, hwf.pool_nodup, ?_, ?_, ?_,
        hwf.pool_decode, hwf.pool_lt, hwf.decode_lt⟩
      · show ((amodify st.encode_map t _).map Prod.fst).Nodup
        rw [amodify_keys]
        exact hwf.encode_keys_nodup
      · intro s1 tok hmem
        obtain ⟨e1, he1, hsym1⟩ := hwf.forward_back s1 tok hmem
        by_cases hk : tok = t
        · subst hk
          show ∃ e2, alookup (amodify st.encode_map tok _) tok = some e2 ∧ e2.symbol = s1
          rw [alookup_amodify_self, he1]
          exact ⟨_, rfl, hsym1⟩
        · show ∃ e2, alookup (amodify st.encode_map t _) tok = some e2 ∧ e2.symbol = s1
          rw [alookup_amodify_ne hk]
          exact ⟨e1, he1, hsym1⟩
      · intro tok e1 hmem
        rcases mem_amodify t _ hmem with ⟨_, hm⟩ | ⟨heq, e0, hm, rfl⟩
        · exact hwf.back_forward tok e1 hm
        · rw [heq]
          exact hwf.back_forward t e0 (heq ▸ hm)
      · intro tok e1 hmem
        rcases mem_amodify t _ hmem with ⟨_, hm⟩ | ⟨heq, e0, hm, rfl⟩
        · exact hwf.ref_pos tok e1 hm
        · have he0 : alookup st.encode_map t = some e0 :=
            mem_alookup hwf.encode_keys_nodup hm
          rw [he] at he0
          cases he0
          have := hwf.rc_pos he
          show 1 ≤ e.ref_count - 1
          omega

theorem incOne_WF {st r : TableState} {s : Symbol} (hwf : WF st)
    (h : incOne st s = some r) : WF r := by
  cases hd : alookup st.decode_map s with
  | none =>
    rw [incOne_none_of_decode_none hd] at h
    cases h
  | some t =>
    obtain ⟨e, he, hsym⟩ := hwf.decode_encode hd
    rw [incOne_eq hd he] at h
    cases h
    refine ⟨hwf.decode_keys_nodup, ?_, hwf.pool_nodup, ?_, ?_, ?_,
      hwf.pool_decode, hwf.pool_lt, hwf.decode_lt⟩
    · show ((amodify st.encode_map t _).map Prod.fst).Nodup
      rw [amodify_keys]
      exact hwf.encode_keys_nodup
    · intro s1 tok hmem
      obtain ⟨e1, he1, hsym1⟩ := hwf.forward_back s1 tok hmem
      by_cases hk : tok = t
      · subst hk
        show ∃ e2, alookup (amodify st.encode_map tok _) tok = some e2 ∧ e2.symbol = s1
        rw [alookup_amodify_self, he1]
        exact ⟨_, rfl, hsym1⟩
      · show ∃ e2, alookup (amodify st.encode_map t _) tok = some e2 ∧ e2.symbol = s1
        rw [alookup_amodify_ne hk]
        exact ⟨e1, he1, hsym1⟩
    · intro tok e1 hmem
      rcases mem_amodify t _ hmem with ⟨_, hm⟩ | ⟨heq, e0, hm, rfl⟩
      · exact hwf.back_forward tok e1 hm
      · rw [heq]
        exact hwf.back_forward t e0 (heq ▸ hm)
    · intro tok e1 hmem
      rcases mem_amodify t _ hmem with ⟨_, hm⟩ | ⟨heq, e0, hm, rfl⟩
      · exact hwf.ref_pos tok e1 hm
      · show 1 ≤ e0.ref_count + 1
        omega

theorem freeSymbols_WF {syms : List Symbol} {st r : TableState} (hwf : WF st)
    (h : freeSymbols st syms = some r) : WF r := by
  induction syms generalizing st with
  | nil =>
    cases h
    exact hwf
  | cons s rest ih =>
    rw [freeSymbols] at h
    cases h1 : freeOne st s with
    | none => rw [h1] at h; cases h
    | some st1 =>
      rw [h1] at h
      exact ih (freeOne_WF hwf h1) h

theorem incSymbols_WF {syms : List Symbol} {st r : TableState} (hwf : WF st)
    (h : incSymbols st syms = some r) : WF r := by
  induction syms generalizing st with
  | nil =>
    cases h
    exact hwf
  | cons s rest ih =>
    rw [incSymbols] at h
    cases h1 : incOne st s with
    | none => rw [h1] at h; cases h
    | some st1 =>
      rw [h1] at h
      exact ih (incOne_WF hwf h1) h

/-! ## `freeOne` reads and writes only the two maps (frame lemmas) -/

theorem freeOne_frame (st1 st2 : TableState) (s : Symbol)
    (he : st1.encode_map = st2.encode_map) (hd : st1.decode_map = st2.decode_map) :
    (freeOne st1 s).isSome = (freeOne st2 s).isSome ∧
    ∀ r1 r2, freeOne st1 s = some r1 → freeOne st2 s = some r2 →
      r1.encode_map = r2.encode_map ∧ r1.decode_map = r2.decode_map := by
  cases hd2 : alookup st2.decode_map s with
  | none =>
    rw [freeOne_none_of_decode_none _ (hd ▸ hd2), freeOne_none_of_decode_none _ hd2]
    exact ⟨rfl, fun r1 r2 h1 => by cases h1⟩
  | some t =>
    cases he2 : alookup st2.encode_map t with
    | none =>
      have hn1 : freeOne st1 s = none := by
        unfold freeOne
        rw [hd, he]
        simp only [hd2, he2]
      have hn2 : freeOne st2 s = none := by
        unfold freeOne
        simp only [hd2, he2]
      rw [hn1, hn2]
      exact ⟨rfl, fun r1 r2 h1 => by cases h1⟩
    | some e =>
      by_cases hrc : e.ref_count = 1
      · rw [freeOne_eq_erase _ (hd ▸ hd2) (he ▸ he2) hrc, freeOne_eq_erase _ hd2 he2 hrc]
        refine ⟨rfl, ?_⟩
        intro r1 r2 h1 h2
        cases h1
        cases h2
        exact ⟨by rw [he], by rw [hd]⟩
      · rw [freeOne_eq_dec _ (hd ▸ hd2) (he ▸ he2) hrc, freeOne_eq_dec _ hd2 he2 hrc]
        refine ⟨rfl, ?_⟩
        intro r1 r2 h1 h2
        cases h1
        cases h2
        exact ⟨by rw [he], by rw [hd]⟩

theorem freeSymbols_frame {syms : List Symbol} {st1 st2 : TableState}
    (he : st1.encode_map = st2.encode_map) (hd : st1.decode_map = st2.decode_map) :
    (freeSymbols st1 syms).isSome = (freeSymbols st2 syms).isSome ∧
    ∀ r1 r2, freeSymbols st1 syms = some r1 → freeSymbols st2 syms = some r2 →
      r1.encode_map = r2.encode_map ∧ r1.decode_map = r2.decode_map := by
  induction syms generalizing st1 st2 with
  | nil =>
    refine ⟨rfl, ?_⟩
    intro r1 r2 h1 h2
    cases h1
    cases h2
    exact ⟨he, hd⟩
  | cons s rest ih =>
    obtain ⟨hs, hmaps⟩ := freeOne_frame st1 st2 s he hd
    rw [freeSymbols, freeSymbols]
    cases h1 : freeOne st1 s with
    | none =>
      cases h2 : freeOne st2 s with
      | none => exact ⟨rfl, fun r1 r2 h => by cases h⟩
      | some y =>
        rw [h1, h2] at hs
        cases hs
    | some x =>
      cases h2 : freeOne st2 s with
      | none =>
        rw [h1, h2] at hs
        cases hs
      | some y =>
        obtain ⟨he1, hd1⟩ := hmaps x y h1 h2
        exact ih he1 hd1

/-! ## Two `freeOne` steps on different symbols commute on the maps -/

theorem freeOne_comm {st : TableState} (hwf : WF st) (a b : Symbol) :
    ((freeOne st a).bind fun x => freeOne x b).isSome =
      ((freeOne st b).bind fun y => freeOne y a).isSome ∧
    ∀ r1 r2, (freeOne st a).bind (fun x => freeOne x b) = some r1 →
      (freeOne st b).bind (fun y => freeOne y a) = some r2 →
      r1.encode_map = r2.encode_map ∧ r1.decode_map = r2.decode_map := by
  by_cases hab : a = b
  · subst hab
    refine ⟨rfl, ?_⟩
    intro r1 r2 h1 h2
    rw [h1] at h2
    cases h2
    exact ⟨rfl, rfl⟩
  have hba : b ≠ a := fun h => hab h.symm
  cases hda : alookup st.decode_map a with
  | none =>
    have hfa : freeOne st a = none := freeOne_none_of_decode_none _ hda
    rw [hfa, Option.none_bind]
    cases hdb : alookup st.decode_map b with
    | none =>
      rw [freeOne_none_of_decode_none _ hdb, Option.none_bind]
      exact ⟨rfl, fun r1 r2 hh => by cases hh⟩
    | some tb =>
      obtain ⟨eb, heb, hsb⟩ := hwf.decode_encode hdb
      by_cases hrb : eb.ref_count = 1
      · rw [freeOne_eq_erase _ hdb heb hrb, Option.some_bind]
        rw [freeOne_none_of_decode_none
          ({ st with
              encode_map := aerase st.encode_map tb,
              decode_map := aerase st.decode_map b,
              pool := b :: st.pool })
          (show alookup (aerase st.decode_map b) a = none from by
            rw [alookup_aerase_ne hab]; exact hda)]
        exact ⟨rfl, fun r1 r2 hh => by cases hh⟩
      · rw [freeOne_eq_dec _ hdb heb hrb, Option.some_bind]
        rw [freeOne_none_of_decode_none
          ({ st with
              encode_map := amodify st.encode_map tb
                (fun e0 => { e0 with ref_count := e0.ref_count - 1 }) })
          (show alookup st.decode_map a = none from hda)]
        exact ⟨rfl, fun r1 r2 hh => by cases hh⟩
  | some ta =>
    obtain ⟨ea, hea, hsa⟩ := hwf.decode_encode hda
    cases hdb : alookup st.decode_map b with
    | none =>
      have hfb : freeOne st b = none := freeOne_none_of_decode_none _ hdb
      rw [hfb, Option.none_bind]
      by_cases hra : ea.ref_count = 1
      · rw [freeOne_eq_erase _ hda hea hra, Option.some_bind]
        rw [freeOne_none_of_decode_none
          ({ st with
              encode_map := aerase st.encode_map ta,
              decode_map := aerase st.decode_map a,
              pool := a :: st.pool })
          (show alookup (aerase st.decode_map a) b = none from by
            rw [alookup_aerase_ne hba]; exact hdb)]
        exact ⟨rfl, fun r1 r2 hh => by cases hh⟩
      · rw [freeOne_eq_dec _ hda hea hra, Option.some_bind]
        rw [freeOne_none_of_decode_none
          ({ st with
              encode_map := amodify st.encode_map ta
                (fun e0 => { e0 with ref_count := e0.ref_count - 1 }) })
          (show alookup st.decode_map b = none from hdb)]
        exact ⟨rfl, fun r1 r2 hh => by cases hh⟩
    | some tb =>
      obtain ⟨eb, heb, hsb⟩ := hwf.decode_encode hdb
      have htab : ta ≠ tb := hwf.decode_inj hda hdb hab
      have htba : tb ≠ ta := fun h => htab h.symm
      by_cases hra : ea.ref_count = 1
      · rw [freeOne_eq_erase _ hda hea hra, Option.some_bind]
        by_cases hrb : eb.ref_count = 1
        · rw [freeOne_eq_erase
              ({ st with
                  encode_map := aerase st.encode_map ta,
                  decode_map := aerase st.decode_map a,
                  pool := a :: st.pool })
              (show alookup (aerase st.decode_map a) b = some tb from by
                rw [alookup_aerase_ne hba]; exact hdb)
              (show alookup (aerase st.encode_map ta) tb = some eb from by
                rw [alookup_aerase_ne htba]; exact heb)
              hrb]
          rw [freeOne_eq_erase _ hdb heb hrb, Option.some_bind]
          rw [freeOne_eq_erase
              ({ st with
                  encode_map := aerase st.encode_map tb,
                  decode_map := aerase st.decode_map b,
                  pool := b :: st.pool })
              (show alookup (aerase st.decode_map b) a = some ta from by
                rw [alookup_aerase_ne hab]; exact hda)
              (show alookup (aerase st.encode_map tb) ta = some ea from by
                rw [alookup_aerase_ne htab]; exact hea)
              hra]
          refine ⟨rfl, ?_⟩
          intro r1 r2 h1 h2
          cases h1
          cases h2
          exact ⟨aerase_aerase_comm _ ta tb htab, aerase_aerase_comm _ a b hab⟩
        · rw [freeOne_eq_dec
              ({ st with
                  encode_map := aerase st.encode_map ta,
                  decode_map := aerase st.decode_map a,
                  pool := a :: st.pool })
              (show alookup (aerase st.decode_map a) b = some tb from by
                rw [alookup_aerase_ne hba]; exact hdb)
              (show alookup (aerase st.encode_map ta) tb = some eb from by
                rw [alookup_aerase_ne htba]; exact heb)
              hrb]
          rw [freeOne_eq_dec _ hdb heb hrb, Option.some_bind]
          rw [freeOne_eq_erase
              ({ st with
                  encode_map := amodify st.encode_map tb
                    (fun e0 => { e0 with ref_count := e0.ref_count - 1 }) })
              (show alookup st.decode_map a = some ta from hda)
              (show alookup (amodify st.encode_map tb
                  (fun e0 => { e0 with ref_count := e0.ref_count - 1 })) ta =
                  some ea from by
                rw [alookup_amodify_ne htab]; exact hea)
              hra]
          refine ⟨rfl, ?_⟩
          intro r1 r2 h1 h2
          cases h1
          cases h2
          constructor
          · show amodify (aerase st.encode_map ta) tb _ =
              aerase (amodify st.encode_map tb _) ta
            rw [aerase_amodify_ne htba]
          · rfl
      · rw [freeOne_eq_dec _ hda hea hra, Option.some_bind]
        by_cases hrb : eb.ref_count = 1
        · rw [freeOne_eq_erase
              ({ st with
                  encode_map := amodify st.encode_map ta
                    (fun e0 => { e0 with ref_count := e0.ref_count - 1 }) })
              (show alookup st.decode_map b = some tb from hdb)
              (show alookup (amodify st.encode_map ta
                  (fun e0 => { e0 with ref_count := e0.ref_count - 1 })) tb =
                  some eb from by
                rw [alookup_amodify_ne htba]; exact heb)
              hrb]
          rw [freeOne_eq_erase _ hdb heb hrb, Option.some_bind]
          rw [freeOne_eq_dec
              ({ st with
                  encode_map := aerase st.encode_map tb,
                  decode_map := aerase st.decode_map b,
                  pool := b :: st.pool })
              (show alookup (aerase st.decode_map b) a = some ta from by
                rw [alookup_aerase_ne hab]; exact hda)
              (show alookup (aerase st.encode_map tb) ta = some ea from by
                rw [alookup_aerase_ne htab]; exact hea)
              hra]
          refine ⟨rfl, ?_⟩
          intro r1 r2 h1 h2
          cases h1
          cases h2
          constructor
          · show aerase (amodify st.encode_map ta _) tb =
              amodify (aerase st.encode_map tb) ta _
            rw [aerase_amodify_ne htab]
          · rfl
        · rw [freeOne_eq_dec
              ({ st with
                  encode_map := amodify st.encode_map ta
                    (fun e0 => { e0 with ref_count := e0.ref_count - 1 }) })
              (show alookup st.decode_map b = some tb from hdb)
              (show alookup (amodify st.encode_map ta
                  (fun e0 => { e0 with ref_count := e0.ref_count - 1 })) tb =
                  some eb from by
                rw [alookup_amodify_ne htba]; exact heb)
              hrb]
          rw [freeOne_eq_dec _ hdb heb hrb, Option.some_bind]
          rw [freeOne_eq_dec
              ({ st with
                  encode_map := amodify st.encode_map tb
                    (fun e0 => { e0 with ref_count := e0.ref_count - 1 }) })
              (show alookup st.decode_map a = some ta from hda)
              (show alookup (amodify st.encode_map tb
                  (fun e0 => { e0 with ref_count := e0.ref_count - 1 })) ta =
                  some ea from by
                rw [alookup_amodify_ne htab]; exact hea)
              hra]
          refine ⟨rfl, ?_⟩
          intro r1 r2 h1 h2
          cases h1
          cases h2
          constructor
          · show amodify (amodify st.encode_map ta _) tb _ =
              amodify (amodify st.encode_map tb _) ta _
            rw [amodify_amodify_ne htab]
          · rfl

theorem freeSymbols_cons (st : TableState) (s : Symbol) (rest : List Symbol) :
    freeSymbols st (s :: rest) = (freeOne st s).bind fun x => freeSymbols x rest := by
  rw [freeSymbols]
  cases freeOne st s <;> rfl

theorem freeSymbols_append (st : TableState) (l1 l2 : List Symbol) :
    freeSymbols st (l1 ++ l2) = (freeSymbols st l1).bind fun x => freeSymbols x l2 := by
  induction l1 generalizing st with
  | nil => rfl
  | cons s rest ih =>
    rw [List.cons_append, freeSymbols_cons, freeSymbols_cons, Option.bind_assoc]
    cases freeOne st s with
    | none => rfl
    | some st1 =>
      rw [Option.some_bind, Option.some_bind]
      exact ih st1

/-- Freeing a permutation of a symbol list succeeds in the same cases and
produces the same maps (only the order of pool pushes can differ). -/
theorem freeSymbols_perm {l1 l2 : List Symbol} (hp : l1.Perm l2) :
    ∀ st : TableState, WF st →
    (freeSymbols st l1).isSome = (freeSymbols st l2).isSome ∧
    ∀ r1 r2, freeSymbols st l1 = some r1 → freeSymbols st l2 = some r2 →
      r1.encode_map = r2.encode_map ∧ r1.decode_map = r2.decode_map := by
  induction hp with
  | nil =>
    intro st _
    refine ⟨rfl, ?_⟩
    intro r1 r2 h1 h2
    cases h1
    cases h2
    exact ⟨rfl, rfl⟩
  | cons x hp ih =>
    intro st hwf
    rw [freeSymbols_cons, freeSymbols_cons]
    cases hf : freeOne st x with
    | none =>
      rw [Option.none_bind]
      exact ⟨rfl, fun r1 r2 hh => by cases hh⟩
    | some st1 =>
      rw [Option.some_bind, Option.some_bind]
      exact ih st1 (freeOne_WF hwf hf)
  | swap x y l =>
    intro st hwf
    simp only [freeSymbols_cons]
    rw [← Option.bind_assoc, ← Option.bind_assoc]
    obtain ⟨hs, hm⟩ := freeOne_comm hwf y x
    cases h1 : (freeOne st y).bind (fun a => freeOne a x) with
    | none =>
      cases h2 : (freeOne st x).bind (fun a => freeOne a y) with
      | none =>
        rw [Option.none_bind]
        exact ⟨rfl, fun r1 r2 hh => by cases hh⟩
      | some r =>
        rw [h1, h2] at hs
        cases hs
    | some r1 =>
      cases h2 : (freeOne st x).bind (fun a => freeOne a y) with
      | none =>
        rw [h1, h2] at hs
        cases hs
      | some r2 =>
        obtain ⟨hee, hdd⟩ := hm r1 r2 h1 h2
        rw [Option.some_bind, Option.some_bind]
        exact freeSymbols_frame hee hdd
  | trans hp1 hp2 ih1 ih2 =>
    intro st hwf
    obtain ⟨hs1, hm1⟩ := ih1 st hwf
    obtain ⟨hs2, hm2⟩ := ih2 st hwf
    refine ⟨hs1.trans hs2, ?_⟩
    intro r1 r3 h1 h3
    cases hmid : freeSymbols st _ with
    | none =>
      rw [h1, hmid] at hs1
      cases hs1
    | some r2 =>
      obtain ⟨ha, hb⟩ := hm1 r1 r2 h1 hmid
      obtain ⟨hc, hd⟩ := hm2 r2 r3 hmid h3
      exact ⟨ha.trans hc, hb.trans hd⟩

/-- Freeing the symbol `toSymbol` just produced undoes its effect on both
maps exactly (a bumped ref count is decremented back; a fresh entry is
erased again). -/
theorem toSymbol_undo {st : TableState} (tk : Tok) (hwf : WF st) :
    ∃ r, freeOne (toSymbol st tk).1 (toSymbol st tk).2 = some r ∧
      r.encode_map = st.encode_map ∧ r.decode_map = st.decode_map := by
  cases hfind : alookup st.encode_map tk with
  | some e =>
    rw [toSymbol_eq_found hfind]
    have hd : alookup st.decode_map e.symbol = some tk := hwf.encode_decode hfind
    have he2 : alookup (amodify st.encode_map tk
        (fun e0 => { e0 with ref_count := e0.ref_count + 1 })) tk =
        some { e with ref_count := e.ref_count + 1 } := by
      rw [alookup_amodify_self, hfind]
      rfl
    have hrc : ¬ ({ e with ref_count := e.ref_count + 1 } : SharedSymbol).ref_count = 1 := by
      have := hwf.rc_pos hfind
      show ¬ e.ref_count + 1 = 1
      omega
    rw [freeOne_eq_dec
        ({ st with
            encode_map := amodify st.encode_map tk
              (fun e0 => { e0 with ref_count := e0.ref_count + 1 }) })
        hd he2 hrc]
    refine ⟨_, rfl, ?_, rfl⟩
    show amodify (amodify st.encode_map tk _) tk _ = st.encode_map
    rw [amodify_amodify_self]
    exact amodify_id st.encode_map tk
  | none =>
    cases hpool : st.pool with
    | cons sp rest =>
      rw [toSymbol_eq_pool hfind hpool]
      rw [freeOne_eq_erase
          ({ st with
              encode_map := (tk, ⟨sp, 1⟩) :: st.encode_map,
              decode_map := (sp, tk) :: st.decode_map,
              pool := rest })
          (show alookup ((sp, tk) :: st.decode_map) sp = some tk from by
            rw [alookup, if_pos rfl])
          (show alookup ((tk, ⟨sp, 1⟩) :: st.encode_map) tk = some ⟨sp, 1⟩ from by
            rw [alookup, if_pos rfl])
          rfl]
      refine ⟨_, rfl, ?_, ?_⟩
      · exact aerase_cons_self tk ⟨sp, 1⟩ st.encode_map
      · exact aerase_cons_self sp tk st.decode_map
    | nil =>
      rw [toSymbol_eq_mint hfind hpool]
      rw [freeOne_eq_erase
          ({ st with
              encode_map := (tk, ⟨st.monotonic_counter, 1⟩) :: st.encode_map,
              decode_map := (st.monotonic_counter, tk) :: st.decode_map,
              monotonic_counter := st.monotonic_counter + 1 })
          (show alookup ((st.monotonic_counter, tk) :: st.decode_map)
              st.monotonic_counter = some tk from by
            rw [alookup, if_pos rfl])
          (show alookup ((tk, ⟨st.monotonic_counter, 1⟩) :: st.encode_map) tk =
              some ⟨st.monotonic_counter, 1⟩ from by
            rw [alookup, if_pos rfl])
          rfl]
      refine ⟨_, rfl, ?_, ?_⟩
      · exact aerase_cons_self tk ⟨st.monotonic_counter, 1⟩ st.encode_map
      · exact aerase_cons_self st.monotonic_counter tk st.decode_map

/-- Freeing the symbols of an `internAll` in reverse order restores both
maps exactly. -/
theorem internAll_free_rev (toks : List Tok) : ∀ st : TableState, WF st →
    ∃ stf, freeSymbols (internAll st toks).1 (internAll st toks).2.reverse = some stf ∧
      stf.encode_map = st.encode_map ∧ stf.decode_map = st.decode_map := by
  induction toks with
  | nil =>
    intro st _
    exact ⟨st, rfl, rfl, rfl⟩
  | cons t ts ih =>
    intro st hwf
    rw [internAll_cons, List.reverse_cons, freeSymbols_append]
    obtain ⟨stf1, hff, hee, hdd⟩ := ih (toSymbol st t).1 (toSymbol_WF hwf)
    rw [hff, Option.some_bind]
    obtain ⟨r, hr, hre, hrd⟩ := toSymbol_undo t hwf
    obtain ⟨hs, hm⟩ := freeOne_frame stf1 (toSymbol st t).1 (toSymbol st t).2 hee hdd
    cases hf1 : freeOne stf1 (toSymbol st t).2 with
    | none =>
      rw [hf1, hr] at hs
      cases hs
    | some rr =>
      obtain ⟨he2, hd2⟩ := hm rr r hf1 hr
      rw [freeSymbols_cons, hf1, Option.some_bind]
      exact ⟨rr, rfl, he2.trans hre, hd2.trans hrd⟩

/-- Freeing, in stream order, exactly the symbols an `internAll` produced
restores both maps to their pre-encode contents. -/
theorem internAll_freeSymbols (toks : List Tok) {st : TableState} (hwf : WF st) :
    ∃ stf, freeSymbols (internAll st toks).1 (internAll st toks).2 = some stf ∧
      stf.encode_map = st.encode_map ∧ stf.decode_map = st.decode_map := by
  obtain ⟨str, hfr, hre, hrd⟩ := internAll_free_rev toks st hwf
  obtain ⟨hs, hm⟩ := freeSymbols_perm (List.reverse_perm (internAll st toks).2)
    (internAll st toks).1 (internAll_WF toks hwf)
  cases hf : freeSymbols (internAll st toks).1 (internAll st toks).2 with
  | none =>
    rw [hfr, hf] at hs
    cases hs
  | some stf =>
    obtain ⟨he2, hd2⟩ := hm str stf hfr hf
    exact ⟨stf, rfl, he2.symm.trans hre, hd2.symm.trans hrd⟩

/-! ## Splitting on `.` and joining back -/

theorem splitOnDot_ne_nil (l : List Char) : splitOnDot l ≠ [] := by
  cases l with
  | nil =>
    rw [splitOnDot]
    exact List.cons_ne_nil _ _
  | cons c rest =>
    rw [splitOnDot]
    by_cases hc : c = '.'
    · rw [if_pos hc]
      exact List.cons_ne_nil _ _
    · rw [if_neg hc]
      cases splitOnDot rest with
      | nil => exact List.cons_ne_nil _ _
      | cons t ts => exact List.cons_ne_nil _ _

theorem joinDot_splitOnDot (l : List Char) : joinDot (splitOnDot l) = l := by
  induction l with
  | nil => rfl
  | cons c rest ih =>
    rw [splitOnDot]
    by_cases hc : c = '.'
    · rw [if_pos hc]
      cases hs : splitOnDot rest with
      | nil => exact absurd hs (splitOnDot_ne_nil rest)
      | cons t ts =>
        rw [hs] at ih
        rw [joinDot, joinTail, List.nil_append, hc]
        rw [joinDot] at ih
        rw [ih]
    · rw [if_neg hc]
      cases hs : splitOnDot rest with
      | nil => exact absurd hs (splitOnDot_ne_nil rest)
      | cons t ts =>
        rw [hs] at ih
        rw [joinDot] at ih
        rw [joinDot, List.cons_append, ih]

theorem joinDot_tokensOf (name : List Char) : joinDot (tokensOf name) = name := by
  unfold tokensOf
  by_cases h : name = []
  · rw [if_pos h, h]
    rfl
  · rw [if_neg h]
    exact joinDot_splitOnDot name

theorem tokensOf_inj {n1 n2 : List Char} (h : tokensOf n1 = tokensOf n2) : n1 = n2 := by
  have := joinDot_tokensOf n1
  rw [h, joinDot_tokensOf n2] at this
  exact this.symm

/-! ## `lookupAll` and decoded token lists -/

theorem lookupAll_of_forall2 {st : TableState} {toks : List Tok} {syms : List Symbol}
    (h : List.Forall₂ (fun tok s => alookup st.decode_map s = some tok) toks syms) :
    lookupAll st syms = some toks := by
  induction h with
  | nil => rfl
  | cons hts hrest ih =>
    rw [lookupAll]
    unfold fromSymbol
    rw [hts, ih]

theorem lookupAll_forall2 {st : TableState} {syms : List Symbol} {toks : List Tok}
    (h : lookupAll st syms = some toks) :
    List.Forall₂ (fun tok s => alookup st.decode_map s = some tok) toks syms := by
  induction syms generalizing toks with
  | nil =>
    cases h
    exact List.Forall₂.nil
  | cons s rest ih =>
    rw [lookupAll] at h
    cases hd : fromSymbol st s with
    | none =>
      rw [hd] at h
      cases h
    | some t =>
      rw [hd] at h
      cases hr : lookupAll st rest with
      | none =>
        rw [hr] at h
        cases h
      | some ts =>
        rw [hr] at h
        cases h
        exact List.Forall₂.cons hd (ih hr)

/-! ## Unpacking a successful `encode` -/

theorem encode_some {st : TableState} {name : List Char} {st' : TableState}
    {storage : List Nat} (h : encode st name = some (st', storage)) :
    st' = (internAll st (tokensOf name)).1 ∧
    moveToStorage (symbolsBytes (internAll st (tokensOf name)).2) = .ok storage := by
  rw [encode_eq] at h
  cases hm : moveToStorage (symbolsBytes (internAll st (tokensOf name)).2) with
  | ok b =>
    rw [hm] at h
    cases h
    exact ⟨rfl, rfl⟩
  | assertFail =>
    rw [hm] at h
    cases h

theorem encode_decodeSymbols {st : TableState} {name : List Char} {st' : TableState}
    {storage : List Nat} (h : encode st name = some (st', storage)) :
    decodeSymbols (payloadOf storage) = some (internAll st (tokensOf name)).2 := by
  obtain ⟨_, hmv⟩ := encode_some h
  rw [moveToStorage_payload hmv]
  exact decodeSymbols_symbolsBytes _

/-! ## The freshly constructed table is well-formed -/

theorem wf_initState : WF initState := by
  refine ⟨List.nodup_nil, List.nodup_nil, List.nodup_nil, ?_, ?_, ?_, ?_, ?_, ?_⟩
  · intro s t hmem
    cases hmem
  · intro t e hmem
    cases hmem
  · intro t e hmem
    cases hmem
  · intro s hs
    cases hs
  · intro s hs
    cases hs
  · intro s t hmem
    cases hmem

theorem statNameEq_true_iff {a b : List Nat} :
    statNameEq a b = true ↔ dataSizeOf a = dataSizeOf b ∧ payloadOf a = payloadOf b := by
  unfold statNameEq
  rw [Bool.and_eq_true, decide_eq_true_iff, decide_eq_true_iff]

theorem statNameEq_self (b : List Nat) : statNameEq b b = true :=
  statNameEq_true_iff.mpr ⟨rfl, rfl⟩

/-! ## C1: `toString` is the inverse of `encode` -/

/-- C1: for every string (modelled as a character list), encoding it in a
well-formed table and converting the result back with `toString` yields
the string again, and the storage can then be freed as the ownership
discipline requires. -/
theorem c1_toString_encode_roundtrip (st : TableState) (name : List Char)
    (st' : TableState) (storage : List Nat) (hwf : WF st)
    (h : encode st name = some (st', storage)) :
    toString st' storage = some name ∧ (free st' storage).isSome = true := by
  obtain ⟨hst, hmv⟩ := encode_some h
  subst hst
  have hdec := encode_decodeSymbols h
  constructor
  · have hspec := internAll_spec (tokensOf name) hwf
    have hlk := lookupAll_of_forall2 (List.Forall₂.imp (fun _ _ hp => hp.1) hspec)
    unfold toString
    simp only [hdec, hlk]
    rw [joinDot_tokensOf]
  · obtain ⟨stf, hf, _, _⟩ := internAll_freeSymbols (tokensOf name) hwf
    unfold free
    simp only [hdec, hf]
    rfl

/-- C1 witness: encoding `"a.b"` in a fresh table produces the concrete
storage `[2, 0, 1, 2]` and the state below, and `toString` recovers
`"a.b"`. -/
theorem c1_toString_encode_roundtrip_witness :
    toString
        { encode_map := [(['b'], ⟨2, 1⟩), (['a'], ⟨1, 1⟩)],
          decode_map := [(2, ['b']), (1, ['a'])],
          pool := [], monotonic_counter := 3 }
        [2, 0, 1, 2] = some ['a', '.', 'b'] ∧
      (free
        { encode_map := [(['b'], ⟨2, 1⟩), (['a'], ⟨1, 1⟩)],
          decode_map := [(2, ['b']), (1, ['a'])],
          pool := [], monotonic_counter := 3 }
        [2, 0, 1, 2]).isSome = true :=
  c1_toString_encode_roundtrip initState ['a', '.', 'b'] _ _ wf_initState (by decide)

/-! ## C2: handle equality and hashing across encodes of one table -/

/-- C2: for two strings encoded by the same table (the second encode runs
on the state the first produced): different strings yield handles that
compare unequal under `StatName::operator==`, and equal strings yield
handles that compare equal and have equal `StatName::hash` values. -/
theorem c2_encode_handle_equality (st : TableState) (s1 s2 : List Char)
    (st1 st2 : TableState) (b1 b2 : List Nat) (hwf : WF st)
    (h1 : encode st s1 = some (st1, b1)) (h2 : encode st1 s2 = some (st2, b2)) :
    (s1 ≠ s2 → statNameEq b1 b2 = false) ∧
    (s1 = s2 → statNameEq b1 b2 = true ∧ statNameHash b1 = statNameHash b2) := by
  have hdec1 := encode_decodeSymbols h1
  have hdec2 := encode_decodeSymbols h2
  obtain ⟨hst1, hmv1⟩ := encode_some h1
  subst hst1
  obtain ⟨hst2, hmv2⟩ := encode_some h2
  subst hst2
  have hwf1 : WF (internAll st (tokensOf s1)).1 := internAll_WF _ hwf
  constructor
  · intro hne
    cases hb : statNameEq b1 b2 with
    | false => rfl
    | true =>
      exfalso
      obtain ⟨_, hpay⟩ := statNameEq_true_iff.mp hb
      have hsyms : (internAll st (tokensOf s1)).2 =
          (internAll (internAll st (tokensOf s1)).1 (tokensOf s2)).2 := by
        have h0 := hdec1
        rw [hpay, hdec2] at h0
        exact (Option.some.inj h0).symm
      have hspec1 := internAll_spec (tokensOf s1) hwf
      have hspec2 := internAll_spec (tokensOf s2) hwf1
      have hlk1 : lookupAll (internAll (internAll st (tokensOf s1)).1 (tokensOf s2)).1
          (internAll st (tokensOf s1)).2 = some (tokensOf s1) := by
        apply lookupAll_of_forall2
        apply List.Forall₂.imp ?_ hspec1
        intro tok s hp
        exact internAll_decode_mono _ hwf1 hp.1
      have hlk2 : lookupAll (internAll (internAll st (tokensOf s1)).1 (tokensOf s2)).1
          (internAll (internAll st (tokensOf s1)).1 (tokensOf s2)).2 =
          some (tokensOf s2) := by
        apply lookupAll_of_forall2
        exact List.Forall₂.imp (fun _ _ hp => hp.1) hspec2
      rw [hsyms, hlk2] at hlk1
      exact hne (tokensOf_inj (Option.some.inj hlk1).symm)
  · intro heq
    subst heq
    have hspec1 := internAll_spec (tokensOf s1) hwf
    have hsyms : (internAll (internAll st (tokensOf s1)).1 (tokensOf s1)).2 =
        (internAll st (tokensOf s1)).2 := by
      apply internAll_found
      exact List.Forall₂.imp (fun _ _ hp => hp.2) hspec1
    have hb : b1 = b2 := by
      rw [hsyms, hmv1] at hmv2
      cases hmv2
      rfl
    subst hb
    exact ⟨statNameEq_self b1, rfl⟩

/-- C2 witness: encoding `"x"` twice in a fresh table gives byte-equal,
hash-equal handles; encoding `"x"` then `"y"` gives unequal handles. -/
theorem c2_encode_handle_equality_witness :
    (statNameEq [1, 0, 1] [1, 0, 1] = true ∧
      statNameHash [1, 0, 1] = statNameHash [1, 0, 1]) ∧
    statNameEq [1, 0, 1] [1, 0, 2] = false :=
  ⟨(c2_encode_handle_equality initState ['x'] ['x']
      { encode_map := [(['x'], ⟨1, 1⟩)], decode_map := [(1, ['x'])],
        pool := [], monotonic_counter := 2 }
      { encode_map := [(['x'], ⟨1, 2⟩)], decode_map := [(1, ['x'])],
        pool := [], monotonic_counter := 2 }
      [1, 0, 1] [1, 0, 1]
      wf_initState (by decide) (by decide)).2 rfl,
    (c2_encode_handle_equality initState ['x'] ['y']
      { encode_map := [(['x'], ⟨1, 1⟩)], decode_map := [(1, ['x'])],
        pool := [], monotonic_counter := 2 }
      { encode_map := [(['y'], ⟨2, 1⟩), (['x'], ⟨1, 1⟩)],
        decode_map := [(2, ['y']), (1, ['x'])],
        pool := [], monotonic_counter := 3 }
      [1, 0, 1] [1, 0, 2]
      wf_initState (by decide) (by decide)).1 (by decide)⟩

/-! ## C6: freeing an encoded name restores `numSymbols` -/

/-- C6: for every well-formed table state and every name, freeing the
storage returned by `encode` succeeds and brings both maps — and hence
`numSymbols()` — back to exactly their values before the encode.  (This
holds even when other live storages hold some of the name's tokens: their
ref counts were bumped by the encode and are decremented back by the
free, which removes exactly the tokens the encode newly interned.) -/
theorem c6_free_restores_numSymbols (st : TableState) (name : List Char)
    (st' : TableState) (storage : List Nat) (hwf : WF st)
    (h : encode st name = some (st', storage)) :
    ∃ st'', free st' storage = some st'' ∧
      st''.encode_map = st.encode_map ∧ st''.decode_map = st.decode_map ∧
      numSymbols st'' = numSymbols st := by
  obtain ⟨hst, hmv⟩ := encode_some h
  subst hst
  unfold free
  rw [encode_decodeSymbols h]
  obtain ⟨stf, hf, he, hd⟩ := internAll_freeSymbols (tokensOf name) hwf
  refine ⟨stf, hf, he, hd, ?_⟩
  unfold numSymbols
  rw [hd]

/-- C6 witness: encode `"a.b"` in a fresh table, free the storage; the
maps come back empty and `numSymbols` returns to 0. -/
theorem c6_free_restores_numSymbols_witness :
    ∃ st'', free
        { encode_map := [(['b'], ⟨2, 1⟩), (['a'], ⟨1, 1⟩)],
          decode_map := [(2, ['b']), (1, ['a'])],
          pool := [], monotonic_counter := 3 }
        [2, 0, 1, 2] = some st'' ∧
      st''.encode_map = initState.encode_map ∧
      st''.decode_map = initState.decode_map ∧
      numSymbols st'' = numSymbols initState :=
  c6_free_restores_numSymbols initState ['a', '.', 'b'] _ _ wf_initState (by decide)

/-! ## `incRefCount` and its exact inverse `free` (C7 machinery) -/

theorem incSymbols_cons (st : TableState) (s : Symbol) (rest : List Symbol) :
    incSymbols st (s :: rest) = (incOne st s).bind fun x => incSymbols x rest := by
  rw [incSymbols]
  cases incOne st s <;> rfl

theorem incOne_parts {st r : TableState} {s : Symbol} (h : incOne st s = some r) :
    r.decode_map = st.decode_map ∧ r.pool = st.pool ∧
    r.monotonic_counter = st.monotonic_counter := by
  cases hd : alookup st.decode_map s with
  | none =>
    rw [incOne_none_of_decode_none hd] at h
    cases h
  | some t =>
    cases he : alookup st.encode_map t with
    | none =>
      rw [incOne_none_of_encode_none hd he] at h
      cases h
    | some e =>
      rw [incOne_eq hd he] at h
      cases h
      exact ⟨rfl, rfl, rfl⟩

theorem incSymbols_parts {syms : List Symbol} {st r : TableState}
    (h : incSymbols st syms = some r) :
    r.decode_map = st.decode_map ∧ r.pool = st.pool ∧
    r.monotonic_counter = st.monotonic_counter := by
  induction syms generalizing st with
  | nil =>
    cases h
    exact ⟨rfl, rfl, rfl⟩
  | cons s rest ih =>
    rw [incSymbols_cons] at h
    cases h1 : incOne st s with
    | none =>
      rw [h1, Option.none_bind] at h
      cases h
    | some st1 =>
      rw [h1, Option.some_bind] at h
      obtain ⟨hd1, hp1, hm1⟩ := incOne_parts h1
      obtain ⟨hd2, hp2, hm2⟩ := ih h
      exact ⟨hd2.trans hd1, hp2.trans hp1, hm2.trans hm1⟩

theorem incSymbols_encode_mono {syms : List Symbol} {st r : TableState}
    (h : incSymbols st syms = some r) {k : Tok} {e : SharedSymbol}
    (hk : alookup st.encode_map k = some e) :
    ∃ e1, alookup r.encode_map k = some e1 ∧ e1.symbol = e.symbol ∧
      e.ref_count ≤ e1.ref_count := by
  induction syms generalizing st e with
  | nil =>
    cases h
    exact ⟨e, hk, rfl, le_refl _⟩
  | cons s rest ih =>
    rw [incSymbols_cons] at h
    cases h1 : incOne st s with
    | none =>
      rw [h1, Option.none_bind] at h
      cases h
    | some st1 =>
      rw [h1, Option.some_bind] at h
      cases hd : alookup st.decode_map s with
      | none =>
        rw [incOne_none_of_decode_none hd] at h1
        cases h1
      | some t =>
        cases he : alookup st.encode_map t with
        | none =>
          rw [incOne_none_of_encode_none hd he] at h1
          cases h1
        | some e0 =>
          rw [incOne_eq hd he] at h1
          cases h1
          by_cases hkt : k = t
          · subst hkt
            have h2 : alookup (amodify st.encode_map k
                (fun e2 => { e2 with ref_count := e2.ref_count + 1 })) k =
                some { e with ref_count := e.ref_count + 1 } := by
              rw [alookup_amodify_self, hk]
              rfl
            obtain ⟨e1, he1, hs1, hr1⟩ := ih h h2
            exact ⟨e1, he1, hs1, by
              have : ({ e with ref_count := e.ref_count + 1 } :
                SharedSymbol).ref_count = e.ref_count + 1 := rfl
              omega⟩
          · have h2 : alookup (amodify st.encode_map t
                (fun e2 => { e2 with ref_count := e2.ref_count + 1 })) k = some e := by
              rw [alookup_amodify_ne hkt]
              exact hk
            exact ih h h2

/-- Incrementing under a pending decrement at one token commutes: running
the same `incSymbols` on the state with that token's ref count already
decremented yields the same final state with the decrement applied. -/
theorem incSymbols_decAt {ss : List Symbol} :
    ∀ (st st1 : TableState) (tk : Tok), incSymbols st ss = some st1 →
    (∀ e', (tk, e') ∈ st.encode_map → 1 ≤ e'.ref_count) →
    incSymbols
        { st with
            encode_map :=
              amodify st.encode_map tk
                (fun e0 => { e0 with ref_count := e0.ref_count - 1 }) } ss =
      some
        { st1 with
            encode_map :=
              amodify st1.encode_map tk
                (fun e0 => { e0 with ref_count := e0.ref_count - 1 }) } := by
  induction ss with
  | nil =>
    intro st st1 tk h hpos
    cases h
    rfl
  | cons u us ih =>
    intro st st1 tk h hpos
    rw [incSymbols_cons] at h
    cases h1 : incOne st u with
    | none =>
      rw [h1, Option.none_bind] at h
      cases h
    | some sta =>
      rw [h1, Option.some_bind] at h
      cases hd : alookup st.decode_map u with
      | none =>
        rw [incOne_none_of_decode_none hd] at h1
        cases h1
      | some tu =>
        cases he : alookup st.encode_map tu with
        | none =>
          rw [incOne_none_of_encode_none hd he] at h1
          cases h1
        | some eu =>
          rw [incOne_eq hd he] at h1
          cases h1
          rw [incSymbols_cons]
          by_cases htu : tu = tk
          · subst htu
            have hstep : incOne
                { st with
                    encode_map :=
                      amodify st.encode_map tu
                        (fun e0 => { e0 with ref_count := e0.ref_count - 1 }) } u =
                some
                  { st with
                      encode_map :=
                        amodify
                          (amodify st.encode_map tu
                            (fun e0 => { e0 with ref_count := e0.ref_count - 1 })) tu
                          (fun e0 => { e0 with ref_count := e0.ref_count + 1 }) } := by
              apply incOne_eq
              · exact hd
              · show alookup (amodify st.encode_map tu _) tu = _
                rw [alookup_amodify_self, he]
                rfl
            rw [hstep, Option.some_bind]
            have hswap : amodify (amodify st.encode_map tu
                  (fun e0 => { e0 with ref_count := e0.ref_count - 1 })) tu
                  (fun e0 => { e0 with ref_count := e0.ref_count + 1 }) =
                amodify (amodify st.encode_map tu
                  (fun e0 => { e0 with ref_count := e0.ref_count + 1 })) tu
                  (fun e0 => { e0 with ref_count := e0.ref_count - 1 }) := by
              rw [amodify_amodify_self, amodify_amodify_self]
              apply amodify_congr
              intro v hv
              have h1le := hpos v hv
              show ({ v with ref_count := v.ref_count - 1 + 1 } : SharedSymbol) =
                { v with ref_count := v.ref_count + 1 - 1 }
              have : v.ref_count - 1 + 1 = v.ref_count + 1 - 1 := by omega
              rw [this]
            rw [hswap]
            apply ih _ _ _ h
            intro e' he'
            rcases mem_amodify tu _ he' with ⟨_, hm⟩ | ⟨_, e0, hm, rfl⟩
            · exact hpos e' hm
            · show 1 ≤ e0.ref_count + 1
              omega
          · have hstep : incOne
                { st with
                    encode_map :=
                      amodify st.encode_map tk
                        (fun e0 => { e0 with ref_count := e0.ref_count - 1 }) } u =
                some
                  { st with
                      encode_map :=
                        amodify
                          (amodify st.encode_map tk
                            (fun e0 => { e0 with ref_count := e0.ref_count - 1 })) tu
                          (fun e0 => { e0 with ref_count := e0.ref_count + 1 }) } := by
              apply incOne_eq
              · exact hd
              · show alookup (amodify st.encode_map tk _) tu = _
                rw [alookup_amodify_ne htu]
                exact he
            rw [hstep, Option.some_bind]
            have hswap : amodify (amodify st.encode_map tk
                  (fun e0 => { e0 with ref_count := e0.ref_count - 1 })) tu
                  (fun e0 => { e0 with ref_count := e0.ref_count + 1 }) =
                amodify (amodify st.encode_map tu
                  (fun e0 => { e0 with ref_count := e0.ref_count + 1 })) tk
                  (fun e0 => { e0 with ref_count := e0.ref_count - 1 }) := by
              rw [amodify_amodify_ne (fun h => htu h.symm)]
            rw [hswap]
            apply ih _ _ _ h
            intro e' he'
            rcases mem_amodify tu _ he' with ⟨_, hm⟩ | ⟨_, e0, hm, rfl⟩
            · exact hpos e' hm
            · show 1 ≤ e0.ref_count + 1
              omega

/-- Running `free` over exactly the symbols a successful `incRefCount`
walked restores the entire state: refs return to their old counts and no
token can reach zero, so maps, pool and counter are untouched. -/
theorem incSymbols_freeSymbols {syms : List Symbol} :
    ∀ st st1 : TableState, WF st → incSymbols st syms = some st1 →
    freeSymbols st1 syms = some st := by
  induction syms with
  | nil =>
    intro st st1 _ h
    cases h
    rfl
  | cons s ss ih =>
    intro st st1 hwf h
    rw [incSymbols_cons] at h
    cases h1 : incOne st s with
    | none =>
      rw [h1, Option.none_bind] at h
      cases h
    | some sta =>
      rw [h1, Option.some_bind] at h
      cases hd : alookup st.decode_map s with
      | none =>
        rw [incOne_none_of_decode_none hd] at h1
        cases h1
      | some t =>
        cases he : alookup st.encode_map t with
        | none =>
          rw [incOne_none_of_encode_none hd he] at h1
          cases h1
        | some e =>
          rw [incOne_eq hd he] at h1
          cases h1
          -- the token entry in st1 still holds the bumped count or more
          have hbump : alookup (amodify st.encode_map t
              (fun e0 => { e0 with ref_count := e0.ref_count + 1 })) t =
              some { e with ref_count := e.ref_count + 1 } := by
            rw [alookup_amodify_self, he]
            rfl
          obtain ⟨e1, he1, hs1, hr1⟩ := incSymbols_encode_mono h hbump
          have hd1 : alookup st1.decode_map s = some t := by
            obtain ⟨hdm, _, _⟩ := incSymbols_parts h
            rw [hdm]
            exact hd
          have hrc1 : ¬ e1.ref_count = 1 := by
            have h2 : ({ e with ref_count := e.ref_count + 1 } :
              SharedSymbol).ref_count = e.ref_count + 1 := rfl
            have h3 := hwf.rc_pos he
            omega
          rw [freeSymbols_cons, freeOne_eq_dec _ hd1 he1 hrc1, Option.some_bind]
          -- the decremented st1 is exactly what incSymbols produces from st
          have hpos : ∀ e',
              (t, e') ∈ amodify st.encode_map t
                (fun e0 => { e0 with ref_count := e0.ref_count + 1 }) →
              1 ≤ e'.ref_count := by
            intro e' he'
            rcases mem_amodify t _ he' with ⟨_, hm⟩ | ⟨_, e0, hm, rfl⟩
            · exact hwf.ref_pos t e' hm
            · show 1 ≤ e0.ref_count + 1
              omega
          have hcomm := incSymbols_decAt _ st1 t h hpos
          have hback :
              ({ st with
                  encode_map :=
                    amodify
                      (amodify st.encode_map t
                        (fun e0 => { e0 with ref_count := e0.ref_count + 1 })) t
                      (fun e0 => { e0 with ref_count := e0.ref_count - 1 }) } :
                TableState) = st := by
            have hE : amodify (amodify st.encode_map t
                (fun e0 => { e0 with ref_count := e0.ref_count + 1 })) t
                (fun e0 => { e0 with ref_count := e0.ref_count - 1 }) =
                st.encode_map := by
              rw [amodify_amodify_self]
              exact amodify_id st.encode_map t
            rw [hE]
          rw [hback] at hcomm
          exact ih st _ hwf hcomm

/-! ## C7: `incRefCount` followed by `free` is the identity -/

/-- C7: for every live handle whose tokens are interned in a well-formed
table (equivalently: whose `incRefCount` succeeds), running
`incRefCount` and then `free` on the same handle returns the entire
table state — both maps, the free pool, the monotonic counter and all
ref counts — exactly to what it was before the two calls. -/
theorem c7_inc_then_free_identity (st : TableState) (storage : List Nat)
    (st1 : TableState) (hwf : WF st) (h : incRefCount st storage = some st1) :
    free st1 storage = some st := by
  unfold incRefCount at h
  cases hd : decodeSymbols (payloadOf storage) with
  | none =>
    rw [hd] at h
    cases h
  | some syms =>
    rw [hd] at h
    unfold free
    rw [hd]
    exact incSymbols_freeSymbols st st1 hwf h

theorem encode_WF {st : TableState} {name : List Char} {st' : TableState}
    {b : List Nat} (hwf : WF st) (h : encode st name = some (st', b)) : WF st' := by
  obtain ⟨hst, _⟩ := encode_some h
  rw [hst]
  exact internAll_WF _ hwf

/-- C7 witness: on the concrete table holding `"a.b"`, `incRefCount` bumps
both tokens to ref count 2 and `free` brings the state back exactly. -/
theorem c7_inc_then_free_identity_witness :
    free
        { encode_map := [(['b'], ⟨2, 2⟩), (['a'], ⟨1, 2⟩)],
          decode_map := [(2, ['b']), (1, ['a'])],
          pool := [], monotonic_counter := 3 }
        [2, 0, 1, 2] =
      some
        { encode_map := [(['b'], ⟨2, 1⟩), (['a'], ⟨1, 1⟩)],
          decode_map := [(2, ['b']), (1, ['a'])],
          pool := [], monotonic_counter := 3 } :=
  c7_inc_then_free_identity
    { encode_map := [(['b'], ⟨2, 1⟩), (['a'], ⟨1, 1⟩)],
      decode_map := [(2, ['b']), (1, ['a'])],
      pool := [], monotonic_counter := 3 }
    [2, 0, 1, 2]
    { encode_map := [(['b'], ⟨2, 2⟩), (['a'], ⟨1, 2⟩)],
      decode_map := [(2, ['b']), (1, ['a'])],
      pool := [], monotonic_counter := 3 }
    (encode_WF wf_initState
      (show encode initState ['a', '.', 'b'] =
        some ({ encode_map := [(['b'], ⟨2, 1⟩), (['a'], ⟨1, 1⟩)],
                decode_map := [(2, ['b']), (1, ['a'])],
                pool := [], monotonic_counter := 3 }, [2, 0, 1, 2]) by decide))
    (by decide)

/-! ## C5: reachable states keep ids partitioned between map and pool -/

theorem free_WF {st st' : TableState} {b : List Nat} (hwf : WF st)
    (h : free st b = some st') : WF st' := by
  unfold free at h
  cases hd : decodeSymbols (payloadOf b) with
  | none =>
    rw [hd] at h
    cases h
  | some syms =>
    rw [hd] at h
    exact freeSymbols_WF hwf h

theorem incRefCount_WF {st st' : TableState} {b : List Nat} (hwf : WF st)
    (h : incRefCount st b = some st') : WF st' := by
  unfold incRefCount at h
  cases hd : decodeSymbols (payloadOf b) with
  | none =>
    rw [hd] at h
    cases h
  | some syms =>
    rw [hd] at h
    exact incSymbols_WF hwf h

theorem join_eq (st : TableState) (bs : List (List Nat)) :
    join st bs =
      match decodeSymbols (concatAll (bs.map payloadOf)) with
      | none => none
      | some syms =>
        match incSymbols st syms with
        | none => none
        | some st1 =>
          match moveToStorage (concatAll (bs.map payloadOf)) with
          | .ok storage => some (st1, storage)
          | .assertFail => none := rfl

theorem join_WF {st st' : TableState} {bs : List (List Nat)} {b : List Nat}
    (hwf : WF st) (h : join st bs = some (st', b)) : WF st' := by
  rw [join_eq] at h
  cases hd : decodeSymbols (concatAll (bs.map payloadOf)) with
  | none =>
    simp only [hd] at h
    cases h
  | some syms =>
    simp only [hd] at h
    cases hi : incSymbols st syms with
    | none =>
      simp only [hi] at h
      cases h
    | some st1 =>
      simp only [hi] at h
      cases hm : moveToStorage (concatAll (bs.map payloadOf)) with
      | ok storage =>
        simp only [hm] at h
        cases h
        exact incSymbols_WF hwf hi
      | assertFail =>
        simp only [hm] at h
        cases h

theorem encodeAll_WF {names : List (List Char)} :
    ∀ {st st' : TableState} {bs : List (List Nat)}, WF st →
    encodeAll st names = some (st', bs) → WF st' := by
  induction names with
  | nil =>
    intro st st' bs hwf h
    cases h
    exact hwf
  | cons n rest ih =>
    intro st st' bs hwf h
    rw [encodeAll] at h
    cases h1 : encode st n with
    | none =>
      rw [h1] at h
      cases h
    | some p =>
      obtain ⟨st1, b1⟩ := p
      simp only [h1] at h
      cases h2 : encodeAll st1 rest with
      | none =>
        simp only [h2] at h
        cases h
      | some q =>
        obtain ⟨st2, bs2⟩ := q
        simp only [h2] at h
        cases h
        exact ih (encode_WF hwf h1) h2

theorem populateList_WF {st st' : TableState} {names : List (List Char)}
    {b : List Nat} (hwf : WF st) (h : populateList st names = some (st', b)) :
    WF st' := by
  unfold populateList at h
  by_cases hn : names.length < 256
  · rw [if_pos hn] at h
    cases h1 : encodeAll st names with
    | none =>
      rw [h1] at h
      cases h
    | some p =>
      rw [h1] at h
      cases h
      exact encodeAll_WF hwf h1
  · rw [if_neg hn] at h
    cases h

/-- Every reachable table state is well-formed. -/
theorem reachable_WF {st : TableState} (h : Reachable st) : WF st := by
  induction h with
  | init => exact wf_initState
  | encode _ hstep ih => exact encode_WF ih hstep
  | free _ hstep ih => exact free_WF ih hstep
  | incRefCount _ hstep ih => exact incRefCount_WF ih hstep
  | join _ hstep ih => exact join_WF ih hstep
  | populateList _ hstep ih => exact populateList_WF ih hstep

/-- C5: in every state reachable by any sequence of `encode`, `join`,
`free`, `incRefCount` and `populateList` operations, each symbol id is
either a key of the decode (reverse) map or an element of the free pool,
never both; and an id sitting in the free pool is absent from both maps
(it is no decode key and no encode-map entry carries it). -/
theorem c5_id_in_map_xor_pool (st : TableState) (h : Reachable st) (s : Symbol) :
    ¬ ((∃ t, (s, t) ∈ st.decode_map) ∧ s ∈ st.pool) ∧
    (s ∈ st.pool →
      (∀ t, (s, t) ∉ st.decode_map) ∧
      (∀ t e, (t, e) ∈ st.encode_map → e.symbol ≠ s)) := by
  have hwf := reachable_WF h
  constructor
  · rintro ⟨⟨t, hmem⟩, hpool⟩
    exact alookup_eq_none.mp (hwf.pool_decode s hpool) t hmem
  · intro hpool
    refine ⟨alookup_eq_none.mp (hwf.pool_decode s hpool), ?_⟩
    intro t e hmem hsym
    have hback := hwf.back_forward t e hmem
    rw [hsym, hwf.pool_decode s hpool] at hback
    cases hback

/-- C5 witness: after encoding `"a"` and freeing it, the reachable state
has id 1 in the free pool and in neither map. -/
theorem c5_id_in_map_xor_pool_witness :
    (¬ ((∃ t, ((1 : Symbol), t) ∈
          ({ encode_map := [], decode_map := [], pool := [1],
             monotonic_counter := 2 } : TableState).decode_map) ∧
        (1 : Symbol) ∈
          ({ encode_map := [], decode_map := [], pool := [1],
             monotonic_counter := 2 } : TableState).pool)) ∧
    ((1 : Symbol) ∈
        ({ encode_map := [], decode_map := [], pool := [1],
           monotonic_counter := 2 } : TableState).pool →
      (∀ t, ((1 : Symbol), t) ∉
          ({ encode_map := [], decode_map := [], pool := [1],
             monotonic_counter := 2 } : TableState).decode_map) ∧
      (∀ t e, (t, e) ∈
          ({ encode_map := [], decode_map := [], pool := [1],
             monotonic_counter := 2 } : TableState).encode_map →
        e.symbol ≠ 1)) :=
  c5_id_in_map_xor_pool
    { encode_map := [], decode_map := [], pool := [1], monotonic_counter := 2 }
    (Reachable.free
      (Reachable.encode Reachable.init
        (show encode initState ['a'] =
          some ({ encode_map := [(['a'], ⟨1, 1⟩)], decode_map := [(1, ['a'])],
                  pool := [], monotonic_counter := 2 }, [1, 0, 1]) by decide))
      (show free
          { encode_map := [(['a'], ⟨1, 1⟩)], decode_map := [(1, ['a'])],
            pool := [], monotonic_counter := 2 }
          [1, 0, 1] =
        some { encode_map := [], decode_map := [], pool := [1],
               monotonic_counter := 2 } by decide))
    1

/-! ## Order facts about `strLt` (byte-wise string comparison) -/

theorem char_toNat_inj {a b : Char} (h : a.toNat = b.toNat) : a = b := by
  apply Char.eq_of_val_eq
  apply UInt32.eq_of_toBitVec_eq
  apply BitVec.eq_of_toNat_eq
  exact h

theorem strLt_nil_right (l : List Char) : strLt l [] = false := by
  cases l <;> rfl

theorem strLt_nil_left (l : List Char) : strLt [] l = true ↔ l ≠ [] := by
  cases l with
  | nil => simp [strLt]
  | cons c cs => simp [strLt]

theorem strLt_cons (a b : Char) (as bs : List Char) :
    strLt (a :: as) (b :: bs) =
      if a.toNat < b.toNat then true
      else if b.toNat < a.toNat then false
      else strLt as bs := by
  rw [strLt]

theorem strLt_irrefl (l : List Char) : strLt l l = false := by
  induction l with
  | nil => rfl
  | cons c cs ih =>
    rw [strLt_cons, if_neg (lt_irrefl c.toNat), if_neg (lt_irrefl c.toNat)]
    exact ih

theorem strLt_trans : ∀ {a b c : List Char},
    strLt a b = true → strLt b c = true → strLt a c = true := by
  intro a
  induction a with
  | nil =>
    intro b c h1 h2
    cases c with
    | nil =>
      rw [strLt_nil_right] at h2
      cases h2
    | cons z zs => rfl
  | cons x xs ih =>
    intro b c h1 h2
    cases b with
    | nil =>
      rw [strLt_nil_right] at h1
      cases h1
    | cons y ys =>
      cases c with
      | nil =>
        rw [strLt_nil_right] at h2
        cases h2
      | cons z zs =>
        rw [strLt_cons] at h1 h2 ⊢
        by_cases hxy : x.toNat < y.toNat
        · by_cases hyz : y.toNat < z.toNat
          · rw [if_pos (lt_trans hxy hyz)]
          · by_cases hzy : z.toNat < y.toNat
            · rw [if_neg hyz, if_pos hzy] at h2
              cases h2
            · rw [if_pos (show x.toNat < z.toNat by omega)]
        · by_cases hyx : y.toNat < x.toNat
          · rw [if_neg hxy, if_pos hyx] at h1
            cases h1
          · rw [if_neg hxy, if_neg hyx] at h1
            by_cases hyz : y.toNat < z.toNat
            · rw [if_pos (show x.toNat < z.toNat by omega)]
            · by_cases hzy : z.toNat < y.toNat
              · rw [if_neg hyz, if_pos hzy] at h2
                cases h2
              · rw [if_neg hyz, if_neg hzy] at h2
                rw [if_neg (show ¬ x.toNat < z.toNat by omega),
                  if_neg (show ¬ z.toNat < x.toNat by omega)]
                exact ih h1 h2

theorem strLt_connex : ∀ {a b : List Char},
    strLt a b = false → strLt b a = false → a = b := by
  intro a
  induction a with
  | nil =>
    intro b h1 _
    cases b with
    | nil => rfl
    | cons y ys => cases h1
  | cons x xs ih =>
    intro b h1 h2
    cases b with
    | nil => cases h2
    | cons y ys =>
      rw [strLt_cons] at h1 h2
      by_cases hxy : x.toNat < y.toNat
      · rw [if_pos hxy] at h1
        cases h1
      · by_cases hyx : y.toNat < x.toNat
        · rw [if_pos hyx] at h2
          cases h2
        · rw [if_neg hxy, if_neg hyx] at h1
          rw [if_neg hyx, if_neg hxy] at h2
          rw [char_toNat_inj (show x.toNat = y.toNat by omega), ih h1 h2]

theorem strLt_append_left : ∀ (p a b : List Char),
    strLt (p ++ a) (p ++ b) = strLt a b := by
  intro p
  induction p with
  | nil => intro a b; rfl
  | cons c cs ih =>
    intro a b
    rw [List.cons_append, List.cons_append, strLt_cons,
      if_neg (lt_irrefl c.toNat), if_neg (lt_irrefl c.toNat)]
    exact ih a b

/-! ## Order facts about `tokensLt` (token-wise comparison) -/

theorem tokensLt_nil_right (l : List Tok) : tokensLt l [] = false := by
  cases l <;> rfl

theorem tokensLt_cons (t u : Tok) (ts us : List Tok) :
    tokensLt (t :: ts) (u :: us) = if t = u then tokensLt ts us else strLt t u := by
  rw [tokensLt]

theorem tokensLt_irrefl (l : List Tok) : tokensLt l l = false := by
  induction l with
  | nil => rfl
  | cons t ts ih =>
    rw [tokensLt_cons, if_pos rfl]
    exact ih

theorem tokensLt_trans : ∀ {a b c : List Tok},
    tokensLt a b = true → tokensLt b c = true → tokensLt a c = true := by
  intro a
  induction a with
  | nil =>
    intro b c h1 h2
    cases c with
    | nil =>
      rw [tokensLt_nil_right] at h2
      cases h2
    | cons v vs => rfl
  | cons t ts ih =>
    intro b c h1 h2
    cases b with
    | nil =>
      rw [tokensLt_nil_right] at h1
      cases h1
    | cons u us =>
      cases c with
      | nil =>
        rw [tokensLt_nil_right] at h2
        cases h2
      | cons v vs =>
        rw [tokensLt_cons] at h1 h2 ⊢
        by_cases htu : t = u
        · subst htu
          rw [if_pos rfl] at h1
          by_cases htv : t = v
          · subst htv
            rw [if_pos rfl] at h2 ⊢
            exact ih h1 h2
          · rw [if_neg htv] at h2 ⊢
            exact h2
        · rw [if_neg htu] at h1
          by_cases huv : u = v
          · subst huv
            rw [if_neg htu]
            exact h1
          · rw [if_neg huv] at h2
            by_cases htv : t = v
            · subst htv
              have := strLt_trans h1 h2
              rw [strLt_irrefl] at this
              cases this
            · rw [if_neg htv]
              exact strLt_trans h1 h2

theorem tokensLt_connex : ∀ {a b : List Tok},
    tokensLt a b = false → tokensLt b a = false → a = b := by
  intro a
  induction a with
  | nil =>
    intro b h1 _
    cases b with
    | nil => rfl
    | cons u us => cases h1
  | cons t ts ih =>
    intro b h1 h2
    cases b with
    | nil => cases h2
    | cons u us =>
      rw [tokensLt_cons] at h1 h2
      by_cases htu : t = u
      · subst htu
        rw [if_pos rfl] at h1 h2
        rw [ih h1 h2]
      · rw [if_neg htu] at h1
        rw [if_neg (fun h => htu h.symm)] at h2
        exact absurd (strLt_connex h1 h2) htu

theorem tokensLt_self_append (ts : List Tok) (u : Tok) (us : List Tok) :
    tokensLt ts (ts ++ u :: us) = true := by
  induction ts with
  | nil => rfl
  | cons t ts' ih =>
    rw [List.cons_append, tokensLt_cons, if_pos rfl]
    exact ih

/-! ## Token-wise order versus plain string order -/

/-- All characters of a string compare above the separator `'.'`; this is
the case for ordinary (alphanumeric) stat names. -/
def allGtDot (l : List Char) : Prop := ∀ c ∈ l, ('.' : Char).toNat < c.toNat

theorem joinTail_shape (ts : List Tok) :
    joinTail ts = [] ∨ ∃ z, joinTail ts = '.' :: z := by
  cases ts with
  | nil => exact Or.inl rfl
  | cons t ts' => exact Or.inr ⟨_, rfl⟩

/-- Comparing `t ++ x` against `u ++ y` for distinct tokens `t ≠ u` whose
characters are above `'.'`, when `x` and `y` are empty or start with the
separator, is the same as comparing `t` against `u`. -/
theorem strLt_token_head : ∀ {t u : List Char} (x y : List Char),
    allGtDot t → allGtDot u →
    (x = [] ∨ ∃ z, x = '.' :: z) → (y = [] ∨ ∃ z, y = '.' :: z) →
    t ≠ u → strLt (t ++ x) (u ++ y) = strLt t u := by
  intro t
  induction t with
  | nil =>
    intro u x y _ hu _ _ hne
    cases u with
    | nil => exact absurd rfl hne
    | cons d u' =>
      have hd : ('.' : Char).toNat < d.toNat := hu d (List.mem_cons_self _ _)
      rw [List.nil_append, List.cons_append]
      rw [show strLt ([] : List Char) (d :: u') = true from rfl]
      cases x with
      | nil => rfl
      | cons c z =>
        rcases (show (c :: z = ([] : List Char) ∨ ∃ w, c :: z = '.' :: w) → c = '.' from by
            rintro (h | ⟨w, h⟩)
            · cases h
            · exact (List.cons.injEq .. ▸ h).1) (by assumption) with rfl
        rw [strLt_cons, if_pos hd]
  | cons c t' ih =>
    intro u x y ht hu hx hy hne
    cases u with
    | nil =>
      have hc : ('.' : Char).toNat < c.toNat := ht c (List.mem_cons_self _ _)
      rw [List.nil_append, List.cons_append, strLt_nil_right]
      cases hy with
      | inl h =>
        subst h
        exact strLt_nil_right _
      | inr h =>
        obtain ⟨z, rfl⟩ := h
        rw [strLt_cons, if_neg (by omega), if_pos (by omega)]
    | cons d u' =>
      rw [List.cons_append, List.cons_append, strLt_cons, strLt_cons]
      by_cases hcd : c.toNat < d.toNat
      · rw [if_pos hcd, if_pos hcd]
      · by_cases hdc : d.toNat < c.toNat
        · rw [if_neg hcd, if_pos hdc, if_neg hcd, if_pos hdc]
        · rw [if_neg hcd, if_neg hdc, if_neg hcd, if_neg hdc]
          have hceq : c = d := char_toNat_inj (by omega)
          subst hceq
          have hne' : t' ≠ u' := fun h => hne (h ▸ rfl)
          exact ih x y (fun a ha => ht a (List.mem_cons_of_mem _ ha))
            (fun a ha => hu a (List.mem_cons_of_mem _ ha)) hx hy hne'

/-- On token lists whose characters are above `'.'`, comparing the
`.`-joined tails is the token-wise comparison. -/
theorem strLt_joinTail : ∀ n ts us, ts.length + us.length ≤ n →
    (∀ tok ∈ ts, allGtDot tok) → (∀ tok ∈ us, allGtDot tok) →
    strLt (joinTail ts) (joinTail us) = tokensLt ts us := by
  intro n
  induction n with
  | zero =>
    intro ts us hlen _ _
    cases ts with
    | cons t ts' => simp at hlen
    | nil =>
      cases us with
      | cons u us' => simp at hlen
      | nil => rfl
  | succ m ih =>
    intro ts us hlen hts hus
    cases ts with
    | nil =>
      cases us with
      | nil => rfl
      | cons u us' => rfl
    | cons t ts' =>
      cases us with
      | nil =>
        rw [joinTail, joinTail, strLt_nil_right, tokensLt_nil_right]
      | cons u us' =>
        rw [joinTail, joinTail, strLt_cons,
          if_neg (lt_irrefl ('.' : Char).toNat), if_neg (lt_irrefl ('.' : Char).toNat),
          tokensLt_cons]
        by_cases htu : t = u
        · subst htu
          rw [if_pos rfl, strLt_append_left]
          apply ih ts' us' (by simp at hlen ⊢; omega)
            (fun a ha => hts a (List.mem_cons_of_mem _ ha))
            (fun a ha => hus a (List.mem_cons_of_mem _ ha))
        · rw [if_neg htu]
          exact strLt_token_head _ _ (hts t (List.mem_cons_self _ _))
            (hus u (List.mem_cons_self _ _)) (joinTail_shape ts') (joinTail_shape us') htu

/-- Token-wise comparison agrees with plain string comparison of the
`.`-joined forms, provided all characters are above `'.'` and neither
list is the singleton empty token (which `encode` never produces). -/
theorem strLt_joinDot (ts us : List Tok)
    (hts : ∀ tok ∈ ts, allGtDot tok) (hus : ∀ tok ∈ us, allGtDot tok)
    (h1 : ts ≠ [[]]) (h2 : us ≠ [[]]) :
    strLt (joinDot ts) (joinDot us) = tokensLt ts us := by
  cases ts with
  | nil =>
    cases us with
    | nil => rfl
    | cons u us' =>
      rw [show joinDot ([] : List Tok) = [] from rfl, joinDot]
      rw [show tokensLt ([] : List Tok) (u :: us') = true from rfl]
      rw [strLt_nil_left]
      intro hjoin
      rcases List.append_eq_nil.mp hjoin with ⟨hu, htail⟩
      subst hu
      cases us' with
      | nil => exact h2 rfl
      | cons v vs => cases htail
  | cons t ts' =>
    cases us with
    | nil =>
      rw [show joinDot ([] : List Tok) = [] from rfl, strLt_nil_right,
        tokensLt_nil_right]
    | cons u us' =>
      rw [joinDot, joinDot, tokensLt_cons]
      by_cases htu : t = u
      · subst htu
        rw [if_pos rfl, strLt_append_left]
        exact strLt_joinTail (ts'.length + us'.length) ts' us' (le_refl _)
          (fun a ha => hts a (List.mem_cons_of_mem _ ha))
          (fun a ha => hus a (List.mem_cons_of_mem _ ha))
      · rw [if_neg htu]
        exact strLt_token_head _ _ (hts t (List.mem_cons_self _ _))
          (hus u (List.mem_cons_self _ _)) (joinTail_shape ts') (joinTail_shape us') htu

/-! ## Characters of tokens, and `tokensOf` versus string order -/

theorem splitOnDot_chars : ∀ (l : List Char), ∀ tok ∈ splitOnDot l, ∀ c ∈ tok, c ∈ l := by
  intro l
  induction l with
  | nil =>
    intro tok htok c hc
    rw [splitOnDot] at htok
    rcases List.mem_cons.mp htok with h | h
    · subst h
      cases hc
    · cases h
  | cons a rest ih =>
    intro tok htok c hc
    rw [splitOnDot] at htok
    by_cases ha : a = '.'
    · rw [if_pos ha] at htok
      rcases List.mem_cons.mp htok with h | h
      · subst h
        cases hc
      · exact List.mem_cons_of_mem _ (ih tok h c hc)
    · rw [if_neg ha] at htok
      cases hs : splitOnDot rest with
      | nil => exact absurd hs (splitOnDot_ne_nil rest)
      | cons t ts =>
        rw [hs] at htok
        rcases List.mem_cons.mp htok with h | h
        · subst h
          rcases List.mem_cons.mp hc with h0 | h0
          · subst h0
            exact List.mem_cons_self _ _
          · exact List.mem_cons_of_mem _
              (ih t (hs ▸ List.mem_cons_self _ _) c h0)
        · exact List.mem_cons_of_mem _
            (ih tok (hs ▸ List.mem_cons_of_mem _ h) c hc)

theorem tokensOf_allGtDot {n : List Char} (h : allGtDot n) :
    ∀ tok ∈ tokensOf n, allGtDot tok := by
  intro tok htok c hc
  unfold tokensOf at htok
  by_cases hn : n = []
  · rw [if_pos hn] at htok
    cases htok
  · rw [if_neg hn] at htok
    exact h c (splitOnDot_chars n tok htok c hc)

theorem tokensOf_ne_single_empty (n : List Char) : tokensOf n ≠ [[]] := by
  unfold tokensOf
  by_cases hn : n = []
  · rw [if_pos hn]
    intro h
    cases h
  · rw [if_neg hn]
    cases n with
    | nil => exact absurd rfl hn
    | cons a rest =>
      rw [splitOnDot]
      by_cases ha : a = '.'
      · rw [if_pos ha]
        intro h
        have h2 := (List.cons.injEq .. ▸ h).2
        exact splitOnDot_ne_nil rest h2
      · rw [if_neg ha]
        cases hs : splitOnDot rest with
        | nil => exact absurd hs (splitOnDot_ne_nil rest)
        | cons t ts =>
          intro h
          have h1 := (List.cons.injEq .. ▸ h).1
          cases h1

theorem tokensLt_tokensOf {n1 n2 : List Char} (h1 : allGtDot n1) (h2 : allGtDot n2) :
    tokensLt (tokensOf n1) (tokensOf n2) = strLt n1 n2 := by
  conv_rhs => rw [← joinDot_tokensOf n1, ← joinDot_tokensOf n2]
  exact (strLt_joinDot (tokensOf n1) (tokensOf n2) (tokensOf_allGtDot h1)
    (tokensOf_allGtDot h2) (tokensOf_ne_single_empty n1)
    (tokensOf_ne_single_empty n2)).symm

/-! ## `lessThan` projections -/

theorem lessThan_eq {st : TableState} {a b : List Nat} {ts us : List Tok}
    (ha : decodedTokens st a = some ts) (hb : decodedTokens st b = some us) :
    lessThan st a b = some (tokensLt ts us) := by
  unfold lessThan
  rw [ha, hb]

theorem lessThan_none_left {st : TableState} {a b : List Nat}
    (ha : decodedTokens st a = none) : lessThan st a b = none := by
  unfold lessThan
  rw [ha]

theorem lessThan_none_right {st : TableState} {a b : List Nat}
    (hb : decodedTokens st b = none) : lessThan st a b = none := by
  unfold lessThan
  rw [hb]
  cases decodedTokens st a <;> rfl

theorem lessThan_some {st : TableState} {a b : List Nat} {r : Bool}
    (h : lessThan st a b = some r) :
    ∃ ts us, decodedTokens st a = some ts ∧ decodedTokens st b = some us ∧
      r = tokensLt ts us := by
  cases ha : decodedTokens st a with
  | none =>
    rw [lessThan_none_left ha] at h
    cases h
  | some ts =>
    cases hb : decodedTokens st b with
    | none =>
      rw [lessThan_none_right hb] at h
      cases h
    | some us =>
      rw [lessThan_eq ha hb] at h
      exact ⟨ts, us, rfl, rfl, (Option.some.inj h).symm⟩

theorem toString_eq_decodedTokens (st : TableState) (storage : List Nat) :
    toString st storage = (decodedTokens st storage).map joinDot := by
  unfold toString decodedTokens
  cases decodeSymbols (payloadOf storage) with
  | none => rfl
  | some syms =>
    cases hl : lookupAll st syms <;> simp [hl]

/-- The decoded token lists of two handles encoded back-to-back on one
table, both read in the final state. -/
theorem decodedTokens_after_two_encodes {st : TableState} {n1 n2 : List Char}
    {st1 st2 : TableState} {b1 b2 : List Nat} (hwf : WF st)
    (h1 : encode st n1 = some (st1, b1)) (h2 : encode st1 n2 = some (st2, b2)) :
    decodedTokens st2 b1 = some (tokensOf n1) ∧
    decodedTokens st2 b2 = some (tokensOf n2) := by
  obtain ⟨hs1, hm1⟩ := encode_some h1
  subst hs1
  obtain ⟨hs2, hm2⟩ := encode_some h2
  subst hs2
  have hwf1 := internAll_WF (tokensOf n1) hwf
  constructor
  · unfold decodedTokens
    simp only [encode_decodeSymbols h1]
    apply lookupAll_of_forall2
    apply List.Forall₂.imp ?_ (internAll_spec (tokensOf n1) hwf)
    intro tok s hp
    exact internAll_decode_mono _ hwf1 hp.1
  · unfold decodedTokens
    simp only [encode_decodeSymbols h2]
    apply lookupAll_of_forall2
    exact List.Forall₂.imp (fun _ _ hp => hp.1) (internAll_spec (tokensOf n2) hwf1)

/-! ## C8: ordering of handles under `lessThan` -/

/-- C8 counterexample: encode `"a!"` and then `"a.b"` from a fresh table.
In plain string order `"a!" < "a.b"` (since `'!' < '.'`), but `lessThan`
puts the handle of `"a.b"` strictly before the handle of `"a!"`: the
claim that `lessThan` agrees with ordinary string order on the decoded
form is false. -/
theorem c8_lessThan_counterexample :
    lessThan
        { encode_map := [(['b'], ⟨3, 1⟩), (['a'], ⟨2, 1⟩), (['a', '!'], ⟨1, 1⟩)],
          decode_map := [(3, ['b']), (2, ['a']), (1, ['a', '!'])],
          pool := [], monotonic_counter := 4 }
        [1, 0, 1] [2, 0, 2, 3] = some false ∧
    lessThan
        { encode_map := [(['b'], ⟨3, 1⟩), (['a'], ⟨2, 1⟩), (['a', '!'], ⟨1, 1⟩)],
          decode_map := [(3, ['b']), (2, ['a']), (1, ['a', '!'])],
          pool := [], monotonic_counter := 4 }
        [2, 0, 2, 3] [1, 0, 1] = some true ∧
    strLt ['a', '!'] ['a', '.', 'b'] = true ∧
    encode initState ['a', '!'] =
      some ({ encode_map := [(['a', '!'], ⟨1, 1⟩)],
              decode_map := [(1, ['a', '!'])],
              pool := [], monotonic_counter := 2 }, [1, 0, 1]) ∧
    encode
        { encode_map := [(['a', '!'], ⟨1, 1⟩)],
          decode_map := [(1, ['a', '!'])],
          pool := [], monotonic_counter := 2 }
        ['a', '.', 'b'] =
      some ({ encode_map := [(['b'], ⟨3, 1⟩), (['a'], ⟨2, 1⟩), (['a', '!'], ⟨1, 1⟩)],
              decode_map := [(3, ['b']), (2, ['a']), (1, ['a', '!'])],
              pool := [], monotonic_counter := 4 }, [2, 0, 2, 3]) ∧
    toString
        { encode_map := [(['b'], ⟨3, 1⟩), (['a'], ⟨2, 1⟩), (['a', '!'], ⟨1, 1⟩)],
          decode_map := [(3, ['b']), (2, ['a']), (1, ['a', '!'])],
          pool := [], monotonic_counter := 4 }
        [1, 0, 1] = some ['a', '!'] ∧
    toString
        { encode_map := [(['b'], ⟨3, 1⟩), (['a'], ⟨2, 1⟩), (['a', '!'], ⟨1, 1⟩)],
          decode_map := [(3, ['b']), (2, ['a']), (1, ['a', '!'])],
          pool := [], monotonic_counter := 4 }
        [2, 0, 2, 3] = some ['a', '.', 'b'] := by
  refine ⟨by decide, by decide, by decide, by decide, by decide, by decide, by decide⟩

/-- C8 (amended): `lessThan` is a strict order on live handles —
irreflexive, transitive, and connected up to equality of the decoded
form — that compares the strings of successive decoded tokens (not the
raw byte order of ids), with a shorter name sorting earlier on a common
token prefix.  It agrees with ordinary string order on the decoded form
for names whose characters all compare greater than the separator `'.'`
(as in ordinary alphanumeric stat names); names containing characters
below `'.'` can order differently from their plain strings. -/
theorem c8_lessThan_strict_order :
    (∀ (st : TableState) (a : List Nat) (ts : List Tok),
        decodedTokens st a = some ts → lessThan st a a = some false) ∧
    (∀ (st : TableState) (a b c : List Nat),
        lessThan st a b = some true → lessThan st b c = some true →
        lessThan st a c = some true) ∧
    (∀ (st : TableState) (a b : List Nat),
        lessThan st a b = some false → lessThan st b a = some false →
        toString st a = toString st b) ∧
    (∀ (st : TableState) (a b : List Nat) (ts us : List Tok),
        decodedTokens st a = some ts → decodedTokens st b = some us →
        lessThan st a b = some (tokensLt ts us)) ∧
    (∀ (st : TableState) (a b : List Nat) (ts : List Tok) (u : Tok) (us : List Tok),
        decodedTokens st a = some ts → decodedTokens st b = some (ts ++ u :: us) →
        lessThan st a b = some true) ∧
    (∀ (st : TableState) (n1 n2 : List Char) (st1 st2 : TableState) (b1 b2 : List Nat),
        WF st → allGtDot n1 → allGtDot n2 →
        encode st n1 = some (st1, b1) → encode st1 n2 = some (st2, b2) →
        lessThan st2 b1 b2 = some (strLt n1 n2)) := by
  refine ⟨?_, ?_, ?_, ?_, ?_, ?_⟩
  · intro st a ts ha
    rw [lessThan_eq ha ha, tokensLt_irrefl]
  · intro st a b c h1 h2
    obtain ⟨ts, us, ha, hb, he1⟩ := lessThan_some h1
    obtain ⟨us2, vs, hb2, hc, he2⟩ := lessThan_some h2
    rw [hb] at hb2
    cases Option.some.inj hb2
    rw [lessThan_eq ha hc, tokensLt_trans he1.symm he2.symm]
  · intro st a b h1 h2
    obtain ⟨ts, us, ha, hb, he1⟩ := lessThan_some h1
    obtain ⟨us2, ts2, hb2, ha2, he2⟩ := lessThan_some h2
    rw [hb] at hb2
    cases Option.some.inj hb2
    rw [ha] at ha2
    cases Option.some.inj ha2
    have hts : ts = us := tokensLt_connex he1.symm he2.symm
    rw [toString_eq_decodedTokens, toString_eq_decodedTokens, ha, hb, hts]
  · intro st a b ts us ha hb
    exact lessThan_eq ha hb
  · intro st a b ts u us ha hb
    rw [lessThan_eq ha hb, tokensLt_self_append]
  · intro st n1 n2 st1 st2 b1 b2 hwf hg1 hg2 h1 h2
    obtain ⟨hd1, hd2⟩ := decodedTokens_after_two_encodes hwf h1 h2
    rw [lessThan_eq hd1 hd2, tokensLt_tokensOf hg1 hg2]

/-- C8 witness: irreflexivity on a concrete handle, and agreement with
string order for the plain names `"a"` and `"b"` encoded on one table. -/
theorem c8_lessThan_strict_order_witness :
    lessThan
        { encode_map := [(['a'], ⟨1, 1⟩)], decode_map := [(1, ['a'])],
          pool := [], monotonic_counter := 2 }
        [1, 0, 1] [1, 0, 1] = some false ∧
    lessThan
        { encode_map := [(['b'], ⟨2, 1⟩), (['a'], ⟨1, 1⟩)],
          decode_map := [(2, ['b']), (1, ['a'])],
          pool := [], monotonic_counter := 3 }
        [1, 0, 1] [1, 0, 2] = some (strLt ['a'] ['b']) :=
  ⟨c8_lessThan_strict_order.1
      { encode_map := [(['a'], ⟨1, 1⟩)], decode_map := [(1, ['a'])],
        pool := [], monotonic_counter := 2 }
      [1, 0, 1] [['a']] (by decide),
    c8_lessThan_strict_order.2.2.2.2.2 initState ['a'] ['b']
      { encode_map := [(['a'], ⟨1, 1⟩)], decode_map := [(1, ['a'])],
        pool := [], monotonic_counter := 2 }
      { encode_map := [(['b'], ⟨2, 1⟩), (['a'], ⟨1, 1⟩)],
        decode_map := [(2, ['b']), (1, ['a'])],
        pool := [], monotonic_counter := 3 }
      [1, 0, 1] [1, 0, 2]
      wf_initState (by unfold allGtDot; decide) (by unfold allGtDot; decide)
      (by decide) (by decide)⟩

/-! ## C3: the varint encoding and its reversibility -/

/-- C3: adding each id with `Encoding::addSymbol` produces a varint byte
stream — byte `i` holds bits `7i…7i+6` of the id in its low 7 bits, with
the high bit set exactly on the non-final bytes — and `decodeSymbols`
applied to the payload written by `moveToStorage` recovers exactly the
original sequence of ids, with no separator needed. -/
theorem c3_varint_roundtrip :
    (∀ (syms : List Symbol) (storage : List Nat),
        moveToStorage (symbolsBytes syms) = .ok storage →
        decodeSymbols (payloadOf storage) = some syms)
    ∧ (∀ n i, i < (varintBytes n).length →
        (varintBytes n).getD i 0 =
          n / 128 ^ i % 128 + (if i + 1 < (varintBytes n).length then 128 else 0)) := by
  constructor
  · intro syms storage h
    rw [moveToStorage_payload h]
    exact decodeSymbols_symbolsBytes syms
  · exact fun n => varintBytes_getD n

/-- C3 witness: ids `[1, 200]` encode to payload `0x01 0xC8 0x01`, move
into storage `[3, 0, 1, 200, 1]` and decode back to `[1, 200]`; the first
byte of the varint of 200 is `200 % 128 + 128 = 0xC8`. -/
theorem c3_varint_roundtrip_witness :
    moveToStorage (symbolsBytes [1, 200]) = .ok [3, 0, 1, 200, 1] ∧
    decodeSymbols (payloadOf [3, 0, 1, 200, 1]) = some [1, 200] ∧
    (varintBytes 200).getD 0 0 =
      200 / 128 ^ 0 % 128 + (if 0 + 1 < (varintBytes 200).length then 128 else 0) := by
  refine ⟨by decide, c3_varint_roundtrip.1 [1, 200] _ (by decide),
    c3_varint_roundtrip.2 200 0 (by decide)⟩

/-! ## C9: the two-byte little-endian length header -/

/-- C9: for every length below 65,536, `writeLengthReturningNext` stores
the length little-endian (low byte first) in the two header bytes and the
data follows them; `StatName::dataSize` reads back exactly that length
and `StatName::size` is `dataSize` plus the two header bytes. -/
theorem c9_length_header (len : Nat) (h : len < StatNameMaxSize) (data : List Nat) :
    writeLengthReturningNext len = some [len % 256, len / 256] ∧
    dataSizeOf ([len % 256, len / 256] ++ data) = len ∧
    sizeOf ([len % 256, len / 256] ++ data) = len + StatNameSizeEncodingBytes := by
  refine ⟨writeLengthReturningNext_lt h, dataSizeOf_header h data, ?_⟩
  unfold sizeOf
  rw [dataSizeOf_header h data]

/-- C9 witness: length 300 has header `[44, 1]` and reads back as 300. -/
theorem c9_length_header_witness :
    300 < StatNameMaxSize ∧
    (writeLengthReturningNext 300 = some [300 % 256, 300 / 256] ∧
      dataSizeOf ([300 % 256, 300 / 256] ++ [7, 8]) = 300 ∧
      sizeOf ([300 % 256, 300 / 256] ++ [7, 8]) = 300 + StatNameSizeEncodingBytes) :=
  ⟨by decide, c9_length_header 300 (by decide) [7, 8]⟩

/-! ## C10: StatName accessors dereference `size_and_data_` unchecked -/

/-- C10: every `StatName` accessor reads through `size_and_data_` without a
null check, so each is well-defined over a non-null size-prefixed buffer
but faults (dereferences a null pointer) on the default-constructed
`StatName`, whose pointer is null. -/
theorem c10_accessors_null_deref :
    dataSizeP nullStatName = none ∧
    sizeP nullStatName = none ∧
    dataP nullStatName = none ∧
    hashP nullStatName = none ∧
    (∀ q, eqP nullStatName q = none) ∧
    (∀ p, eqP p nullStatName = none) ∧
    copyToStorageP nullStatName = none ∧
    (∀ buf : List Nat, 2 ≤ buf.length →
      (dataSizeP (some buf)).isSome ∧ (sizeP (some buf)).isSome ∧
      (dataP (some buf)).isSome ∧ (hashP (some buf)).isSome ∧
      (eqP (some buf) (some buf)).isSome ∧ (copyToStorageP (some buf)).isSome) := by
  have hnull : dataSizeP nullStatName = none := rfl
  refine ⟨rfl, rfl, rfl, rfl, ?_, ?_, rfl, ?_⟩
  · intro q
    unfold eqP
    rw [hnull]
  · intro p
    unfold eqP
    rw [hnull]
    cases dataSizeP p <;> rfl
  · intro buf hlen
    rcases buf with _ | ⟨b0, _ | ⟨b1, rest⟩⟩
    · simp at hlen
    · simp at hlen
    · exact ⟨rfl, rfl, rfl, rfl, rfl, rfl⟩

/-- C10 witness: the accessors succeed on the concrete two-byte buffer
`[0, 0]` (an encoded empty name) and fault on the null handle. -/
theorem c10_accessors_null_deref_witness :
    2 ≤ ([0, 0] : List Nat).length ∧
    ((dataSizeP (some [0, 0])).isSome ∧ (sizeP (some [0, 0])).isSome ∧
      (dataP (some [0, 0])).isSome ∧ (hashP (some [0, 0])).isSome ∧
      (eqP (some [0, 0]) (some [0, 0])).isSome ∧
      (copyToStorageP (some [0, 0])).isSome) ∧
    eqP nullStatName (some [0, 0]) = none :=
  ⟨by decide, c10_accessors_null_deref.2.2.2.2.2.2.2 [0, 0] (by decide),
    c10_accessors_null_deref.2.2.2.2.1 (some [0, 0])⟩

/-! ## C4: the 65,535-byte payload cap and the failure mode -/

/-- The error kind the spec's error table promises for over-long names. -/
inductive EncodeError where
  | nameTooLong
deriving DecidableEq

/-- Modelled from the spec's words (for comparison with the source): "a
joined name whose total payload exceeds 65,535 bytes fails with
`NameTooLong`", "Returned to caller".  The source has no such error
channel. -/
def moveToStorageSpec (vec : List Nat) : Except EncodeError (List Nat) :=
  if vec.length < StatNameMaxSize
  then .ok ([vec.length % 256, vec.length / 256] ++ vec)
  else .error .nameTooLong

/-- C4 counterexample: at a payload of exactly 65,536 bytes the code fires
`ASSERT(length < StatNameMaxSize)` in `writeLengthReturningNext` — an
assertion failure (abort), not a `NameTooLong` error value returned to the
caller as the claim states; the spec-following variant would return
`.error .nameTooLong` instead. -/
theorem c4_payload_cap_counterexample :
    moveToStorage (List.replicate 65536 1) = MoveOutcome.assertFail ∧
    moveToStorageSpec (List.replicate 65536 1) =
      Except.error EncodeError.nameTooLong := by
  have hlen : (List.replicate 65536 1).length = 65536 := List.length_replicate 65536 1
  constructor
  · exact moveToStorage_assertFail (by rw [hlen, statNameMaxSize_eq]; omega)
  · unfold moveToStorageSpec
    rw [if_neg (by rw [hlen, statNameMaxSize_eq]; omega)]

/-- C4 (amended): encoding a name whose payload is exactly 65,535 bytes
succeeds, while a payload of 65,536 bytes fails the
`ASSERT(length < StatNameMaxSize)` in `writeLengthReturningNext` — an
assertion failure (a crash in debug builds), not a `NameTooLong` error
value returned to the caller; `encode` accordingly has no error return
and aborts exactly when the payload exceeds the cap. -/
theorem c4_payload_cap_boundary :
    (∀ vec : List Nat, vec.length = 65535 →
        moveToStorage vec = .ok ([255, 255] ++ vec))
    ∧ (∀ vec : List Nat, vec.length = 65536 → moveToStorage vec = .assertFail)
    ∧ (∀ st name, encode st name = none ↔
        ¬ (symbolsBytes (internAll st (tokensOf name)).2).length < StatNameMaxSize) := by
  refine ⟨?_, ?_, ?_⟩
  · intro vec hlen
    have h : vec.length < StatNameMaxSize := by rw [hlen, statNameMaxSize_eq]; omega
    rw [moveToStorage_ok h, hlen]
  · intro vec hlen
    exact moveToStorage_assertFail (by rw [hlen, statNameMaxSize_eq]; omega)
  · intro st name
    rw [encode_eq]
    by_cases hlt : (symbolsBytes (internAll st (tokensOf name)).2).length < StatNameMaxSize
    · rw [moveToStorage_ok hlt]
      simp [hlt]
    · rw [moveToStorage_assertFail hlt]
      simp [hlt]

/-- C4 witness: concrete payloads of 65,535 and 65,536 one-bytes. -/
theorem c4_payload_cap_boundary_witness :
    (List.replicate 65535 1).length = 65535 ∧
    moveToStorage (List.replicate 65535 1) = .ok ([255, 255] ++ List.replicate 65535 1) ∧
    (List.replicate 65536 1).length = 65536 ∧
    moveToStorage (List.replicate 65536 1) = .assertFail :=
  ⟨List.length_replicate 65535 1,
    c4_payload_cap_boundary.1 _ (List.length_replicate 65535 1),
    List.length_replicate 65536 1,
    c4_payload_cap_boundary.2.1 _ (List.length_replicate 65536 1)⟩

end EnvoyStats
